import Mathlib

/-!
Verification of the nadine endianness conversion library (src/nadine.h).

Shallow embedding conventions:
  * a machine byte is a natural number; the code assumes CHAR_BIT == 8, so a
    byte is below 256 wherever the C type system guarantees unsigned char;
  * a value of an n-byte unsigned integer type T is a natural number below
    256 ^ n (its bit pattern); signed and floating point values are likewise
    modelled by their bit patterns, since every nadine operation is purely
    positional on bytes and never interprets the value arithmetically;
  * a memory buffer is a List Nat of its bytes;
  * the byte order that the host machine natively uses is a parameter
    e (the endian tag of that order, one of 0, 1, 2, 3); the in-memory
    representation of a value on such a machine is given by punBytes below,
    which realises the layout that the tag describes (base order bit plus
    swap-pairs bit, exactly the index map NADINE_I_INDEX of the source).
    Type punning a value into chars (NADINE_I_TYPE_PUN) is punBytes, and
    reading a value back from chars (NADINE_I_TYPE_UNPUN) is unpun.
-/

namespace Nadine

/-- Endian tag constants from nadine.h lines 157-160. -/
def NADINE_ENDIAN_LITTLE : Nat := 0

/-- Big-endian tag, nadine.h line 158. -/
def NADINE_ENDIAN_BIG : Nat := 1

/-- Swap-chars flag, nadine.h line 159. -/
def NADINE_ENDIAN_SWAPCHARS : Nat := 2

/-- Unknown sentinel, nadine.h line 160 (UINT_MAX on a 32-bit unsigned). -/
def NADINE_ENDIAN_UNKNOWN : Nat := 4294967295

/-- Swap of the elements at positions i and j of a list, the effect of the
NADINE_I_BSWAP macro (nadine.h line 418) on an unsigned char array. The
element written at j is the element read from the original list at i, as the
temporary in the C macro provides. -/
def swapIdx (l : List Nat) (i j : Nat) : List Nat :=
  (l.set i (l.getD j 0)).set j (l.getD i 0)

/-- The general two-pointer loop of nadine_i_memrev (nadine.h lines 489-493):
while a < b, swap the elements at a and b and move the pointers inward. -/
def revLoopAux (l : List Nat) (a b : Nat) : List Nat :=
  if a < b then revLoopAux (swapIdx l a b) (a + 1) (b - 1) else l
termination_by b - a
decreasing_by omega

/-- nadine_i_memrev (nadine.h lines 465-494): reverse a byte array, with the
lengths 1, 2, 4 and 8 special-cased as explicit swap sequences and every
other length handled by the two-pointer loop on indices 0 and n - 1. -/
def nadine_i_memrev (l : List Nat) : List Nat :=
  if l.length = 1 then l
  else if l.length = 2 then swapIdx l 0 1
  else if l.length = 4 then swapIdx (swapIdx l 0 3) 1 2
  else if l.length = 8 then
    swapIdx (swapIdx (swapIdx (swapIdx l 0 7) 1 6) 2 5) 3 4
  else revLoopAux l 0 (l.length - 1)

/-- The loop of nadine_i_byteswap (nadine.h lines 500-504): b is fixed at
index n - 1 and while a < b the elements at a and a + 1 are swapped and a
advances by 2. -/
def byteswapAux (l : List Nat) (a b : Nat) : List Nat :=
  if a < b then byteswapAux (swapIdx l a (a + 1)) (a + 2) b else l
termination_by b - a
decreasing_by omega

/-- nadine_i_byteswap (nadine.h lines 497-505): swap adjacent char pairs in a
byte array. -/
def nadine_i_byteswap (l : List Nat) : List Nat :=
  byteswapAux l 0 (l.length - 1)

/-- nadine_i_xform (nadine.h lines 508-511): apply the transformations that
the XORed endian code xf calls for, the full reversal first (bit 0), then the
adjacent pair swap (bit 1). -/
def nadine_i_xform (l : List Nat) (xf : Nat) : List Nat :=
  let l1 := if xf &&& 1 ≠ 0 then nadine_i_memrev l else l
  if xf &&& 2 ≠ 0 then nadine_i_byteswap l1 else l1

/-- Specification-level adjacent pair swap: exchange elements 2k and 2k+1 of
every complete pair; a trailing odd element stays in place. -/
def pairSwap : List Nat → List Nat
  | a :: b :: rest => b :: a :: pairSwap rest
  | l => l

/-- NADINE_I_INDEX (nadine.h lines 731-732): the buffer index that holds value
byte i of an n-byte value stored under the order endian. -/
def NADINE_I_INDEX (endian n i : Nat) : Nat :=
  (if endian &&& 1 ≠ 0 then n - i - 1 else i) ^^^
    (if endian &&& 2 ≠ 0 then 1 else 0)

/-- Value byte i of a bit pattern v: base-256 digit i. In the source this is
written with shifts, (v >> (CHAR_BIT * i)) & 0xFF. -/
def byteAt (v i : Nat) : Nat := v / 256 ^ i % 256

/-- In-memory bytes of the n-byte value v on a machine whose native order has
tag e: buffer position p holds value byte NADINE_I_INDEX e n p. This models
NADINE_I_TYPE_PUN / NADINE_I_MAKE_TYPE_PUNNER (nadine.h lines 556-561) for a
host machine of order e. -/
def punBytes (e n v : Nat) : List Nat :=
  (List.range n).map fun p => byteAt v (NADINE_I_INDEX e n p)

/-- Value read back from the n leading bytes of buffer m on a machine of
native order e, the model of NADINE_I_TYPE_UNPUN (nadine.h line 563): value
byte i is taken from buffer position NADINE_I_INDEX e n i. -/
def unpun (e n : Nat) (m : List Nat) : Nat :=
  ∑ i ∈ Finset.range n, m.getD (NADINE_I_INDEX e n i) 0 * 256 ^ i

/-- The probe chain of nadine_endian_native for integer types (nadine.h lines
608-622), as a function of the punned byte buffer of the value 1. -/
def probeInt (buf : List Nat) : Nat :=
  if buf.getD 0 0 ≠ 0 then NADINE_ENDIAN_LITTLE
  else if buf.getD (buf.length - 1) 0 ≠ 0 then NADINE_ENDIAN_BIG
  else if buf.getD 1 0 ≠ 0 then NADINE_ENDIAN_LITTLE ||| NADINE_ENDIAN_SWAPCHARS
  else if buf.getD (buf.length - 2) 0 ≠ 0 then
    NADINE_ENDIAN_BIG ||| NADINE_ENDIAN_SWAPCHARS
  else NADINE_ENDIAN_UNKNOWN

/-- nadine_endian_native_N for an n-byte integer type on a machine of native
order e (NADINE_I_IMPL_NN_UI, nadine.h lines 608-622): pun the value 1 and
probe its bytes. -/
def nadine_endian_native (e n : Nat) : Nat := probeInt (punBytes e n 1)

/-- NADINE_I_NATIVE_INT (nadine.h lines 626-631), the C99 compound-literal
shortcut used inside convert, read and write: check byte 0 and byte n - 1 of
the punned value 1 directly and fall back to the full detector otherwise. -/
def NADINE_I_NATIVE_INT (e n : Nat) : Nat :=
  if (punBytes e n 1).getD 0 0 ≠ 0 then NADINE_ENDIAN_LITTLE
  else if (punBytes e n 1).getD (n - 1) 0 ≠ 0 then NADINE_ENDIAN_BIG
  else nadine_endian_native e n

/-- The IEEE-754 bit pattern of the floating-point value 2.0 in an n-byte
format: only the most significant byte is set, to 0x40 (sign 0, biased
exponent starting with bit pattern 100...). For n = 4 this is 0x40000000 and
for n = 8 it is 0x4000000000000000. -/
def floatTwoPattern (n : Nat) : Nat := 64 * 256 ^ (n - 1)

/-- The probe chain of nadine_endian_native for floating-point types
(nadine.h lines 647-661), as a function of the punned byte buffer of 2.0;
note the checks are mirrored relative to probeInt because 2.0 sets the
highest byte where 1 sets the lowest. -/
def probeFloat (buf : List Nat) : Nat :=
  if buf.getD 0 0 ≠ 0 then NADINE_ENDIAN_BIG
  else if buf.getD (buf.length - 1) 0 ≠ 0 then NADINE_ENDIAN_LITTLE
  else if buf.getD 1 0 ≠ 0 then NADINE_ENDIAN_BIG ||| NADINE_ENDIAN_SWAPCHARS
  else if buf.getD (buf.length - 2) 0 ≠ 0 then
    NADINE_ENDIAN_LITTLE ||| NADINE_ENDIAN_SWAPCHARS
  else NADINE_ENDIAN_UNKNOWN

/-- nadine_endian_native_N for an n-byte floating-point type on a machine
whose floating-point native order is e (NADINE_I_IMPL_NN_F, nadine.h lines
647-661). -/
def nadine_endian_native_float (e n : Nat) : Nat :=
  probeFloat (punBytes e n (floatTwoPattern n))

/-- NADINE_I_NATIVE_FLOAT (nadine.h lines 665-670), the C99 shortcut: check
byte n - 1 (little) then byte 0 (big) of the punned 2.0 and fall back to the
full detector otherwise. -/
def NADINE_I_NATIVE_FLOAT (e n : Nat) : Nat :=
  if (punBytes e n (floatTwoPattern n)).getD (n - 1) 0 ≠ 0 then
    NADINE_ENDIAN_LITTLE
  else if (punBytes e n (floatTwoPattern n)).getD 0 0 ≠ 0 then NADINE_ENDIAN_BIG
  else nadine_endian_native_float e n

/-- NADINE_I_WREV2 (nadine.h lines 440-442), the standard C shift-and-mask
2-byte reversal; the trailing reduction is the cast back to T. -/
def NADINE_I_WREV2 (x : Nat) : Nat :=
  (((x &&& 0x00FF) <<< 8) ||| ((x &&& 0xFF00) >>> 8)) % 2 ^ 16

/-- NADINE_I_WREV4 (nadine.h lines 444-448), the standard C shift-and-mask
4-byte reversal. -/
def NADINE_I_WREV4 (x : Nat) : Nat :=
  (((x &&& 0x000000FF) <<< 24) |||
   ((x &&& 0x0000FF00) <<< 8) |||
   ((x &&& 0x00FF0000) >>> 8) |||
   ((x &&& 0xFF000000) >>> 24)) % 2 ^ 32

/-- NADINE_I_WREV8 (nadine.h lines 451-459), the standard C shift-and-mask
8-byte reversal. -/
def NADINE_I_WREV8 (x : Nat) : Nat :=
  (((x &&& 0x00000000000000FF) <<< 56) |||
   ((x &&& 0x000000000000FF00) <<< 40) |||
   ((x &&& 0x0000000000FF0000) <<< 24) |||
   ((x &&& 0x00000000FF000000) <<< 8) |||
   ((x &&& 0x000000FF00000000) >>> 8) |||
   ((x &&& 0x0000FF0000000000) >>> 24) |||
   ((x &&& 0x00FF000000000000) >>> 40) |||
   ((x &&& 0xFF00000000000000) >>> 56)) % 2 ^ 64

/-- The general tail of NADINE_I_IMPL_CVT_UI (nadine.h lines 690-697): pun
the value, run nadine_i_xform with code native XOR endian on the bytes, and
read the value back. -/
def nadine_i_cvt_general (e n native endian v : Nat) : Nat :=
  unpun e n (nadine_i_xform (punBytes e n v) (native ^^^ endian))

/-- nadine_convert_N for an n-byte unsigned integer type on a machine of
native order e (NADINE_I_IMPL_CVT_UI, nadine.h lines 677-698): return the
value unchanged when the orders agree or the type is one byte wide, take the
WREV fast path when only a full reversal is needed (the switch covers the
widths 2, 4 and 8 and falls through to the general path otherwise; CHAR_BIT
is 8 in this model), and otherwise run the general transform. The signed
conversions (NADINE_I_IMPL_CVT_SI) reinterpret the bit pattern and call this
same function, so on bit patterns they are this function. -/
def nadine_convert (e n endian v : Nat) : Nat :=
  let native := NADINE_I_NATIVE_INT e n
  if native = endian ∨ n = 1 then v
  else if native ^^^ endian = 1 then
    if n = 2 then NADINE_I_WREV2 v
    else if n = 4 then NADINE_I_WREV4 v
    else if n = 8 then NADINE_I_WREV8 v
    else nadine_i_cvt_general e n native endian v
  else nadine_i_cvt_general e n native endian v

/-- nadine_convert_N for an n-byte floating-point type, acting on bit
patterns, on a machine whose floating-point order is e (NADINE_I_IMPL_CVT_F,
nadine.h lines 712-720): always pun, transform and unpun, with no early
return and no fast path. -/
def nadine_convert_float (e n endian v : Nat) : Nat :=
  unpun e n (nadine_i_xform (punBytes e n v) (NADINE_I_NATIVE_FLOAT e n ^^^ endian))

/-- nadine_read_N in the shift-and-mask strategy (NADINE_I_IMPL_RW_UI with
NADINE_I_USE_SHIFT_RW, nadine.h lines 734-742): assemble the value by
accumulating source byte NADINE_I_INDEX endian n i into value byte i. The
reduction models the unsigned arithmetic of type T. -/
def nadine_read_shift (endian n : Nat) (src : List Nat) : Nat :=
  (List.range n).foldl
    (fun v i =>
      v ||| (src.getD (NADINE_I_INDEX endian n i) 0 <<< (8 * i)) % 2 ^ (8 * n))
    0

/-- nadine_write_N in the shift-and-mask strategy (nadine.h lines 743-750):
store value byte i, (v >> (8 i)) truncated to a char, at destination index
NADINE_I_INDEX endian n i. -/
def nadine_write_shift (endian n : Nat) (dst : List Nat) (v : Nat) : List Nat :=
  (List.range n).foldl
    (fun d i => d.set (NADINE_I_INDEX endian n i) (v >>> (8 * i) % 256)) dst

/-- nadine_read_N in the copy-then-transform strategy (nadine.h lines
753-761): copy the leading n source bytes, run nadine_i_xform with code
native XOR endian, and reinterpret the buffer as a value of the machine. -/
def nadine_read_copy (e endian n : Nat) (src : List Nat) : Nat :=
  unpun e n (nadine_i_xform (List.take n src) (NADINE_I_NATIVE_INT e n ^^^ endian))

/-- nadine_write_N in the copy-then-transform strategy (nadine.h lines
762-768): pun the value, run nadine_i_xform with code native XOR endian, and
copy the n transformed bytes over the leading n destination bytes. -/
def nadine_write_copy (e endian n : Nat) (dst : List Nat) (v : Nat) : List Nat :=
  nadine_i_xform (punBytes e n v) (NADINE_I_NATIVE_INT e n ^^^ endian) ++
    List.drop n dst

/-! Helper lemmas: xor-with-one arithmetic and the index map algebra. -/

theorem xorOne (x : Nat) : x ^^^ 1 = if x % 2 = 0 then x + 1 else x - 1 := by
  by_cases h : x % 2 = 0
  · have h1 : Nat.bit false (x / 2) = x := by simp [Nat.bit]; omega
    have h2 : Nat.bit true 0 = (1 : Nat) := by simp [Nat.bit]
    rw [if_pos h, ← h1, ← h2, Nat.xor_bit]
    simp [Nat.bit]
  · have h1 : Nat.bit true (x / 2) = x := by simp [Nat.bit]; omega
    have h2 : Nat.bit true 0 = (1 : Nat) := by simp [Nat.bit]
    rw [if_neg h, ← h1, ← h2, Nat.xor_bit]
    simp [Nat.bit]

theorem INDEX_zero (n i : Nat) : NADINE_I_INDEX 0 n i = i := by
  simp [NADINE_I_INDEX, show (0 : Nat) &&& 1 = 0 from rfl,
    show (0 : Nat) &&& 2 = 0 from rfl]

theorem INDEX_one (n i : Nat) : NADINE_I_INDEX 1 n i = n - i - 1 := by
  simp [NADINE_I_INDEX, show (1 : Nat) &&& 1 = 1 from rfl,
    show (1 : Nat) &&& 2 = 0 from rfl]

theorem INDEX_two (n i : Nat) : NADINE_I_INDEX 2 n i = i ^^^ 1 := by
  simp [NADINE_I_INDEX, show (2 : Nat) &&& 1 = 0 from rfl,
    show (2 : Nat) &&& 2 = 2 from rfl]

theorem INDEX_three (n i : Nat) : NADINE_I_INDEX 3 n i = (n - i - 1) ^^^ 1 := by
  simp [NADINE_I_INDEX, show (3 : Nat) &&& 1 = 1 from rfl,
    show (3 : Nat) &&& 2 = 2 from rfl]

theorem INDEX_lt {endian n i : Nat} (he : endian < 4) (hn : 2 ∣ n) (hi : i < n) :
    NADINE_I_INDEX endian n i < n := by
  interval_cases endian <;>
    simp only [INDEX_zero, INDEX_one, INDEX_two, INDEX_three, xorOne] <;>
    first
    | omega
    | (split_ifs <;> omega)

theorem INDEX_comp {a b n i : Nat} (ha : a < 4) (hb : b < 4) (hn : 2 ∣ n)
    (hi : i < n) :
    NADINE_I_INDEX a n (NADINE_I_INDEX b n i) = NADINE_I_INDEX (a ^^^ b) n i := by
  interval_cases a <;> interval_cases b <;>
    simp only [show (0 : Nat) ^^^ 0 = 0 from rfl, show (0 : Nat) ^^^ 1 = 1 from rfl,
      show (0 : Nat) ^^^ 2 = 2 from rfl, show (0 : Nat) ^^^ 3 = 3 from rfl,
      show (1 : Nat) ^^^ 0 = 1 from rfl, show (1 : Nat) ^^^ 1 = 0 from rfl,
      show (1 : Nat) ^^^ 2 = 3 from rfl, show (1 : Nat) ^^^ 3 = 2 from rfl,
      show (2 : Nat) ^^^ 0 = 2 from rfl, show (2 : Nat) ^^^ 1 = 3 from rfl,
      show (2 : Nat) ^^^ 2 = 0 from rfl, show (2 : Nat) ^^^ 3 = 1 from rfl,
      show (3 : Nat) ^^^ 0 = 3 from rfl, show (3 : Nat) ^^^ 1 = 2 from rfl,
      show (3 : Nat) ^^^ 2 = 1 from rfl, show (3 : Nat) ^^^ 3 = 0 from rfl,
      INDEX_zero, INDEX_one, INDEX_two, INDEX_three, xorOne] <;>
    first
    | omega
    | (split_ifs <;> omega)

/-! Helper lemmas: getD-level reasoning on lists and the embedded loops. -/

theorem ext_getD {l1 l2 : List Nat} (hl : l1.length = l2.length)
    (h : ∀ p, p < l1.length → l1.getD p 0 = l2.getD p 0) : l1 = l2 := by
  apply List.ext_getElem hl
  intro p h1 h2
  have hp := h p h1
  rwa [List.getD_eq_getElem _ _ h1, List.getD_eq_getElem _ _ h2] at hp

theorem set_getD {l : List Nat} {i : Nat} (hi : i < l.length) (a p : Nat) :
    (l.set i a).getD p 0 = if p = i then a else l.getD p 0 := by
  rw [List.getD_eq_getElem?_getD, List.getD_eq_getElem?_getD, List.getElem?_set]
  by_cases h : p = i
  · subst h
    simp [hi]
  · rw [if_neg (Ne.symm h), if_neg h]

theorem swapIdx_length (l : List Nat) (i j : Nat) :
    (swapIdx l i j).length = l.length := by
  simp [swapIdx]

theorem swapIdx_getD {l : List Nat} {i j : Nat} (hi : i < l.length)
    (hj : j < l.length) (p : Nat) :
    (swapIdx l i j).getD p 0 =
      if p = j then l.getD i 0 else if p = i then l.getD j 0 else l.getD p 0 := by
  unfold swapIdx
  rw [set_getD (by simpa using hj), set_getD hi]

theorem revLoopAux_length (l : List Nat) (a b : Nat) :
    (revLoopAux l a b).length = l.length := by
  induction l, a, b using revLoopAux.induct with
  | case1 l a b h ih => rw [revLoopAux, if_pos h, ih, swapIdx_length]
  | case2 l a b h => rw [revLoopAux, if_neg h]

theorem revLoopAux_getD (l : List Nat) (a b : Nat) (hb : b < l.length) (p : Nat) :
    (revLoopAux l a b).getD p 0 =
      if a ≤ p ∧ p ≤ b then l.getD (a + b - p) 0 else l.getD p 0 := by
  induction l, a, b using revLoopAux.induct with
  | case2 l a b h =>
    rw [revLoopAux, if_neg h]
    by_cases hc : a ≤ p ∧ p ≤ b
    · have he : a + b - p = p := by omega
      rw [if_pos hc, he]
    · rw [if_neg hc]
  | case1 l a b h ih =>
    rw [revLoopAux, if_pos h]
    have ha : a < l.length := by omega
    have hb1 : b - 1 < (swapIdx l a b).length := by rw [swapIdx_length]; omega
    rw [ih hb1]
    by_cases h1 : a + 1 ≤ p ∧ p ≤ b - 1
    · rw [if_pos h1, swapIdx_getD ha hb, if_neg (by omega : ¬a + 1 + (b - 1) - p = b),
        if_neg (by omega : ¬a + 1 + (b - 1) - p = a), if_pos (by omega : a ≤ p ∧ p ≤ b)]
      congr 1
      omega
    · rw [if_neg h1, swapIdx_getD ha hb]
      by_cases hpa : p = a
      · subst hpa
        rw [if_neg (by omega : ¬p = b), if_pos rfl, if_pos (by omega : p ≤ p ∧ p ≤ b)]
        congr 1
        omega
      · by_cases hpb : p = b
        · subst hpb
          rw [if_pos rfl, if_pos (by omega : a ≤ p ∧ p ≤ p)]
          congr 1
          omega
        · rw [if_neg hpb, if_neg hpa, if_neg (by omega : ¬(a ≤ p ∧ p ≤ b))]

theorem reverse_getD {l : List Nat} {p : Nat} (hp : p < l.length) :
    l.reverse.getD p 0 = l.getD (l.length - 1 - p) 0 := by
  rw [List.getD_eq_getElem _ _ (by simpa using hp),
    List.getD_eq_getElem _ _ (by omega), List.getElem_reverse]

theorem nadine_i_memrev_length (l : List Nat) :
    (nadine_i_memrev l).length = l.length := by
  unfold nadine_i_memrev
  split_ifs <;> simp [swapIdx_length, revLoopAux_length]

theorem nadine_i_memrev_eq_reverse (l : List Nat) :
    nadine_i_memrev l = l.reverse := by
  unfold nadine_i_memrev
  by_cases h1 : l.length = 1
  · obtain ⟨a, rfl⟩ := List.length_eq_one.mp h1
    simp
  rw [if_neg h1]
  by_cases h2 : l.length = 2
  · rw [if_pos h2]
    rcases l with _ | ⟨a, _ | ⟨b, _ | ⟨c, t⟩⟩⟩ <;> simp_all [swapIdx]
  rw [if_neg h2]
  by_cases h4 : l.length = 4
  · rw [if_pos h4]
    rcases l with _ | ⟨a, _ | ⟨b, _ | ⟨c, _ | ⟨d, _ | ⟨e, t⟩⟩⟩⟩⟩ <;>
      simp_all [swapIdx]
  rw [if_neg h4]
  by_cases h8 : l.length = 8
  · rw [if_pos h8]
    rcases l with _ | ⟨a, _ | ⟨b, _ | ⟨c, _ | ⟨d, _ | ⟨e, _ | ⟨f, _ |
      ⟨g, _ | ⟨i, _ | ⟨j, t⟩⟩⟩⟩⟩⟩⟩⟩⟩ <;> simp_all [swapIdx]
  rw [if_neg h8]
  rcases Nat.eq_zero_or_pos l.length with hz | hpos
  · obtain rfl := List.length_eq_zero.mp hz
    rw [revLoopAux]
    simp
  · apply ext_getD
    · rw [revLoopAux_length, List.length_reverse]
    · intro p hp
      rw [revLoopAux_length] at hp
      rw [revLoopAux_getD _ _ _ (by omega) p,
        if_pos ⟨Nat.zero_le p, by omega⟩, reverse_getD hp]
      congr 1
      omega

theorem byteswapAux_length (l : List Nat) (a b : Nat) :
    (byteswapAux l a b).length = l.length := by
  induction l, a, b using byteswapAux.induct with
  | case1 l a b h ih => rw [byteswapAux, if_pos h, ih, swapIdx_length]
  | case2 l a b h => rw [byteswapAux, if_neg h]

theorem byteswapAux_getD (l : List Nat) (a b p : Nat) (hb : b < l.length) :
    (byteswapAux l a b).getD p 0 =
      if a ≤ p ∧ (p - a) % 2 = 0 ∧ p < b then l.getD (p + 1) 0
      else if a ≤ p ∧ (p - a) % 2 = 1 ∧ p - 1 < b then l.getD (p - 1) 0
      else l.getD p 0 := by
  induction l, a, b using byteswapAux.induct with
  | case2 l a b h =>
    rw [byteswapAux, if_neg h, if_neg (by omega), if_neg (by omega)]
  | case1 l a b h ih =>
    rw [byteswapAux, if_pos h]
    have ha : a < l.length := by omega
    have ha1 : a + 1 < l.length := by omega
    rw [ih ((swapIdx_length l a (a + 1)).symm ▸ hb)]
    simp only [swapIdx_getD ha ha1]
    split_ifs <;> first | rfl | (congr 1; omega) | (exfalso; omega)

theorem pairSwap_length (l : List Nat) : (pairSwap l).length = l.length := by
  induction l using pairSwap.induct <;> simp [pairSwap, *]

theorem pairSwap_getD (l : List Nat) (p : Nat) :
    (pairSwap l).getD p 0 =
      if p + 1 < l.length ∧ p % 2 = 0 then l.getD (p + 1) 0
      else if p < l.length ∧ p % 2 = 1 then l.getD (p - 1) 0
      else l.getD p 0 := by
  induction l using pairSwap.induct generalizing p with
  | case1 a b rest ih =>
    simp only [pairSwap]
    match p with
    | 0 =>
      rw [if_pos (show 0 + 1 < (a :: b :: rest).length ∧ 0 % 2 = 0 from
        ⟨by simp only [List.length_cons]; omega, by omega⟩)]
      rfl
    | 1 =>
      rw [if_neg (show ¬(1 + 1 < (a :: b :: rest).length ∧ 1 % 2 = 0) by omega),
        if_pos (show 1 < (a :: b :: rest).length ∧ 1 % 2 = 1 from
          ⟨by simp only [List.length_cons]; omega, by omega⟩)]
      rfl
    | q + 2 =>
      show (pairSwap rest).getD q 0 = _
      rw [ih q]
      by_cases c1 : q + 1 < rest.length ∧ q % 2 = 0
      · rw [if_pos c1,
          if_pos (show q + 2 + 1 < (a :: b :: rest).length ∧ (q + 2) % 2 = 0 from
            ⟨by simp only [List.length_cons]; omega, by omega⟩)]
        rfl
      · by_cases c2 : q < rest.length ∧ q % 2 = 1
        · rw [if_neg c1, if_pos c2,
            if_neg (show ¬(q + 2 + 1 < (a :: b :: rest).length ∧ (q + 2) % 2 = 0) by
              simp only [List.length_cons]; omega),
            if_pos (show q + 2 < (a :: b :: rest).length ∧ (q + 2) % 2 = 1 from
              ⟨by simp only [List.length_cons]; omega, by omega⟩)]
          obtain ⟨q', rfl⟩ : ∃ q', q = q' + 1 := ⟨q - 1, by omega⟩
          rfl
        · rw [if_neg c1, if_neg c2,
            if_neg (show ¬(q + 2 + 1 < (a :: b :: rest).length ∧ (q + 2) % 2 = 0) by
              simp only [List.length_cons]; omega),
            if_neg (show ¬(q + 2 < (a :: b :: rest).length ∧ (q + 2) % 2 = 1) by
              simp only [List.length_cons]; omega)]
          rfl
  | case2 l h1 =>
    have hps : pairSwap l = l := by
      rcases l with _ | ⟨a, _ | ⟨b, t⟩⟩
      · rfl
      · rfl
      · exact ((h1 a b t) rfl).elim
    rw [hps]
    rcases l with _ | ⟨a, _ | ⟨b, t⟩⟩
    · simp
    · rw [if_neg (show ¬(p + 1 < [a].length ∧ p % 2 = 0) by
        simp only [List.length_singleton]; omega),
        if_neg (show ¬(p < [a].length ∧ p % 2 = 1) by
          simp only [List.length_singleton]; omega)]
    · exact ((h1 a b t) rfl).elim

theorem nadine_i_byteswap_eq_pairSwap (l : List Nat) :
    nadine_i_byteswap l = pairSwap l := by
  rcases Nat.eq_zero_or_pos l.length with hz | hpos
  · obtain rfl := List.length_eq_zero.mp hz
    simp [nadine_i_byteswap, byteswapAux, pairSwap]
  · apply ext_getD
    · unfold nadine_i_byteswap
      rw [byteswapAux_length, pairSwap_length]
    · intro p hp
      unfold nadine_i_byteswap at hp ⊢
      rw [byteswapAux_length] at hp
      rw [byteswapAux_getD _ _ _ _ (by omega), pairSwap_getD]
      split_ifs <;> first | rfl | (exfalso; omega)

/-! Helper lemmas: transform application as the index permutation. -/

theorem nadine_i_xform_length (l : List Nat) (c : Nat) :
    (nadine_i_xform l c).length = l.length := by
  unfold nadine_i_xform
  split_ifs <;>
    simp [nadine_i_memrev_eq_reverse, nadine_i_byteswap_eq_pairSwap,
      pairSwap_length]

theorem nadine_i_xform_zero (l : List Nat) : nadine_i_xform l 0 = l := by
  unfold nadine_i_xform
  simp only [show (0 : Nat) &&& 1 = 0 from rfl, show (0 : Nat) &&& 2 = 0 from rfl]
  norm_num

theorem nadine_i_xform_one (l : List Nat) :
    nadine_i_xform l 1 = nadine_i_memrev l := by
  unfold nadine_i_xform
  simp only [show (1 : Nat) &&& 1 = 1 from rfl, show (1 : Nat) &&& 2 = 0 from rfl]
  norm_num

theorem nadine_i_xform_two (l : List Nat) :
    nadine_i_xform l 2 = nadine_i_byteswap l := by
  unfold nadine_i_xform
  simp only [show (2 : Nat) &&& 1 = 0 from rfl, show (2 : Nat) &&& 2 = 2 from rfl]
  norm_num

theorem nadine_i_xform_three (l : List Nat) :
    nadine_i_xform l 3 = nadine_i_byteswap (nadine_i_memrev l) := by
  unfold nadine_i_xform
  simp only [show (3 : Nat) &&& 1 = 1 from rfl, show (3 : Nat) &&& 2 = 2 from rfl]
  norm_num

theorem nadine_i_xform_getD {l : List Nat} {c : Nat} (hc : c < 4)
    (hn : 2 ∣ l.length) {p : Nat} (hp : p < l.length) :
    (nadine_i_xform l c).getD p 0 = l.getD (NADINE_I_INDEX c l.length p) 0 := by
  interval_cases c
  · rw [nadine_i_xform_zero, INDEX_zero]
  · rw [nadine_i_xform_one, nadine_i_memrev_eq_reverse, reverse_getD hp, INDEX_one]
    congr 1
    omega
  · rw [nadine_i_xform_two, nadine_i_byteswap_eq_pairSwap, pairSwap_getD,
      INDEX_two, xorOne]
    split_ifs <;> first | rfl | (congr 1; omega) | (exfalso; omega)
  · rw [nadine_i_xform_three, nadine_i_byteswap_eq_pairSwap, pairSwap_getD,
      nadine_i_memrev_eq_reverse, List.length_reverse, INDEX_three, xorOne]
    split_ifs <;>
      first
      | (rw [reverse_getD (by omega)]; congr 1; omega)
      | (exfalso; omega)

/-! Helper lemmas: the machine representation map punBytes. -/

theorem punBytes_length (e n v : Nat) : (punBytes e n v).length = n := by
  simp [punBytes]

theorem punBytes_getD {e n v p : Nat} (hp : p < n) :
    (punBytes e n v).getD p 0 = byteAt v (NADINE_I_INDEX e n p) := by
  rw [punBytes, List.getD_eq_getElem?_getD, List.getElem?_map,
    List.getElem?_range hp]
  rfl

theorem byteAt_lt (v i : Nat) : byteAt v i < 256 :=
  Nat.mod_lt _ (by norm_num)

theorem punBytes_mem_lt {e n v : Nat} : ∀ x ∈ punBytes e n v, x < 256 := by
  intro x hx
  simp only [punBytes, List.mem_map] at hx
  obtain ⟨p, _, rfl⟩ := hx
  exact byteAt_lt _ _

theorem xform_punBytes {e c n v : Nat} (he : e < 4) (hc : c < 4) (hn : 2 ∣ n) :
    nadine_i_xform (punBytes e n v) c = punBytes (e ^^^ c) n v := by
  apply ext_getD
  · rw [nadine_i_xform_length, punBytes_length, punBytes_length]
  · intro p hp
    rw [nadine_i_xform_length, punBytes_length] at hp
    rw [nadine_i_xform_getD hc (by rw [punBytes_length]; exact hn)
      (by rw [punBytes_length]; exact hp)]
    simp only [punBytes_length]
    rw [punBytes_getD (INDEX_lt hc hn hp), punBytes_getD hp,
      INDEX_comp he hc hn hp]

/-! Helper lemmas: bytes of the probe values 1 and 2.0. -/

theorem byteAt_one (j : Nat) : byteAt 1 j = if j = 0 then 1 else 0 := by
  unfold byteAt
  rcases j with _ | j
  · rfl
  · rw [if_neg (by omega), Nat.div_eq_of_lt (Nat.one_lt_pow (by omega) (by norm_num))]

theorem byteAt_floatTwo {n : Nat} (hn : 0 < n) (j : Nat) :
    byteAt (floatTwoPattern n) j = if j = n - 1 then 64 else 0 := by
  unfold byteAt floatTwoPattern
  by_cases h : j = n - 1
  · subst h
    rw [if_pos rfl, Nat.mul_div_cancel _ (Nat.pow_pos (by norm_num))]
  · rw [if_neg h]
    rcases Nat.lt_or_ge j (n - 1) with hlt | hge
    · have e1 : 256 ^ (n - 1) = 256 ^ j * 256 ^ (n - 1 - j) := by
        rw [← pow_add]
        congr 1
        omega
      have e2 : 64 * (256 ^ j * 256 ^ (n - 1 - j)) =
          256 ^ j * (64 * 256 ^ (n - 1 - j)) := by ring
      rw [e1, e2, Nat.mul_div_cancel_left _ (Nat.pow_pos (by norm_num))]
      obtain ⟨k, hk⟩ : ∃ k, n - 1 - j = k + 1 := ⟨n - 2 - j, by omega⟩
      have e4 : 64 * 256 ^ (n - 1 - j) = 256 * (64 * 256 ^ k) := by
        rw [hk, pow_succ]
        ring
      rw [e4, Nat.mul_mod_right]
    · have hbound : 64 * 256 ^ (n - 1) < 256 ^ j := by
        have hp : 0 < 256 ^ (n - 1) := Nat.pow_pos (by norm_num)
        calc 64 * 256 ^ (n - 1) < 256 * 256 ^ (n - 1) :=
              (Nat.mul_lt_mul_right hp).mpr (by norm_num)
          _ = 256 ^ n := by
              rw [← pow_succ']
              congr 1
              omega
          _ ≤ 256 ^ j := Nat.pow_le_pow_right (by norm_num) (by omega)
      rw [Nat.div_eq_of_lt hbound]

/-! Helper lemmas: the native-order detectors classify the four machine
orders correctly, and the C99 shortcut macros agree with the detectors. -/

theorem detect_int_two {e : Nat} (he : e < 4) :
    nadine_endian_native e 2 = if e = 0 ∨ e = 3 then 0 else 1 := by
  interval_cases e <;> decide

theorem detect_int_big {e n : Nat} (he : e < 4) (hn : 2 ∣ n) (h4 : 4 ≤ n) :
    nadine_endian_native e n = e := by
  unfold nadine_endian_native probeInt
  simp only [punBytes_length]
  interval_cases e
  · rw [punBytes_getD (by omega : 0 < n), INDEX_zero, byteAt_one]
    simp [NADINE_ENDIAN_LITTLE]
  · have g0 : (punBytes 1 n 1).getD 0 0 = 0 := by
      rw [punBytes_getD (by omega : 0 < n), INDEX_one, byteAt_one,
        if_neg (by omega : ¬n - 0 - 1 = 0)]
    have g1 : (punBytes 1 n 1).getD (n - 1) 0 = 1 := by
      rw [punBytes_getD (by omega : n - 1 < n), INDEX_one, byteAt_one,
        if_pos (by omega : n - (n - 1) - 1 = 0)]
    rw [g0, g1]
    simp [NADINE_ENDIAN_BIG]
  · have g0 : (punBytes 2 n 1).getD 0 0 = 0 := by
      rw [punBytes_getD (by omega : 0 < n), INDEX_two,
        show (0 : Nat) ^^^ 1 = 1 from rfl, byteAt_one, if_neg (by omega)]
    have g1 : (punBytes 2 n 1).getD (n - 1) 0 = 0 := by
      rw [punBytes_getD (by omega : n - 1 < n), INDEX_two]
      have hx : (n - 1) ^^^ 1 = n - 2 := by
        rw [xorOne]
        split_ifs <;> omega
      rw [hx, byteAt_one, if_neg (by omega)]
    have g2 : (punBytes 2 n 1).getD 1 0 = 1 := by
      rw [punBytes_getD (by omega : 1 < n), INDEX_two,
        show (1 : Nat) ^^^ 1 = 0 from rfl, byteAt_one, if_pos rfl]
    rw [g0, g1, g2]
    simp [NADINE_ENDIAN_LITTLE, NADINE_ENDIAN_SWAPCHARS]
  · have g0 : (punBytes 3 n 1).getD 0 0 = 0 := by
      rw [punBytes_getD (by omega : 0 < n), INDEX_three]
      have hx : (n - 0 - 1) ^^^ 1 = n - 2 := by
        rw [xorOne]
        split_ifs <;> omega
      rw [hx, byteAt_one, if_neg (by omega)]
    have g1 : (punBytes 3 n 1).getD (n - 1) 0 = 0 := by
      rw [punBytes_getD (by omega : n - 1 < n), INDEX_three]
      have hx : (n - (n - 1) - 1) ^^^ 1 = 1 := by
        rw [xorOne]
        split_ifs <;> omega
      rw [hx, byteAt_one, if_neg (by omega)]
    have g2 : (punBytes 3 n 1).getD 1 0 = 0 := by
      rw [punBytes_getD (by omega : 1 < n), INDEX_three]
      have hx : (n - 1 - 1) ^^^ 1 = n - 1 := by
        rw [xorOne]
        split_ifs <;> omega
      rw [hx, byteAt_one, if_neg (by omega)]
    have g3 : (punBytes 3 n 1).getD (n - 2) 0 = 1 := by
      rw [punBytes_getD (by omega : n - 2 < n), INDEX_three]
      have hx : (n - (n - 2) - 1) ^^^ 1 = 0 := by
        rw [xorOne]
        split_ifs <;> omega
      rw [hx, byteAt_one, if_pos rfl]
    rw [g0, g1, g2, g3]
    simp [NADINE_ENDIAN_BIG, NADINE_ENDIAN_SWAPCHARS]

theorem detect_int_lt {e n : Nat} (he : e < 4) (hn : 2 ∣ n) (h0 : 0 < n) :
    nadine_endian_native e n < 4 := by
  have h24 : n = 2 ∨ 4 ≤ n := by omega
  rcases h24 with rfl | h4
  · rw [detect_int_two he]
    split_ifs <;> omega
  · rw [detect_int_big he hn h4]
    exact he

theorem INDEX_detect_int {e n : Nat} (he : e < 4) (hn : 2 ∣ n) (h0 : 0 < n) :
    ∀ j, j < n →
      NADINE_I_INDEX (nadine_endian_native e n) n j = NADINE_I_INDEX e n j := by
  have h24 : n = 2 ∨ 4 ≤ n := by omega
  rcases h24 with rfl | h4
  · interval_cases e
    · intro j hj
      rw [show nadine_endian_native 0 2 = 0 from by decide]
    · intro j hj
      rw [show nadine_endian_native 1 2 = 1 from by decide]
    · intro j hj
      rw [show nadine_endian_native 2 2 = 1 from by decide]
      interval_cases j <;> decide
    · intro j hj
      rw [show nadine_endian_native 3 2 = 0 from by decide]
      interval_cases j <;> decide
  · intro j hj
    rw [detect_int_big he hn h4]

theorem NATIVE_INT_eq (e n : Nat) :
    NADINE_I_NATIVE_INT e n = nadine_endian_native e n := by
  unfold NADINE_I_NATIVE_INT nadine_endian_native probeInt
  simp only [punBytes_length]
  by_cases h0 : (punBytes e n 1).getD 0 0 ≠ 0
  · simp only [if_pos h0]
  · simp only [if_neg h0]
    by_cases h1 : (punBytes e n 1).getD (n - 1) 0 ≠ 0
    · simp only [if_pos h1]
    · simp only [if_neg h1]

theorem detect_float_two {e : Nat} (he : e < 4) :
    nadine_endian_native_float e 2 = if e = 0 ∨ e = 3 then 0 else 1 := by
  interval_cases e <;> decide

theorem detect_float_big {e n : Nat} (he : e < 4) (hn : 2 ∣ n) (h4 : 4 ≤ n) :
    nadine_endian_native_float e n = e := by
  unfold nadine_endian_native_float probeFloat
  simp only [punBytes_length]
  interval_cases e
  · have g0 : (punBytes 0 n (floatTwoPattern n)).getD 0 0 = 0 := by
      rw [punBytes_getD (by omega : 0 < n), INDEX_zero,
        byteAt_floatTwo (by omega), if_neg (by omega)]
    have g1 : (punBytes 0 n (floatTwoPattern n)).getD (n - 1) 0 = 64 := by
      rw [punBytes_getD (by omega : n - 1 < n), INDEX_zero,
        byteAt_floatTwo (by omega), if_pos rfl]
    rw [g0, g1]
    simp [NADINE_ENDIAN_LITTLE]
  · have g0 : (punBytes 1 n (floatTwoPattern n)).getD 0 0 = 64 := by
      rw [punBytes_getD (by omega : 0 < n), INDEX_one,
        byteAt_floatTwo (by omega), if_pos (by omega)]
    rw [g0]
    simp [NADINE_ENDIAN_BIG]
  · have g0 : (punBytes 2 n (floatTwoPattern n)).getD 0 0 = 0 := by
      rw [punBytes_getD (by omega : 0 < n), INDEX_two,
        show (0 : Nat) ^^^ 1 = 1 from rfl, byteAt_floatTwo (by omega),
        if_neg (by omega)]
    have g1 : (punBytes 2 n (floatTwoPattern n)).getD (n - 1) 0 = 0 := by
      rw [punBytes_getD (by omega : n - 1 < n), INDEX_two]
      have hx : (n - 1) ^^^ 1 = n - 2 := by
        rw [xorOne]
        split_ifs <;> omega
      rw [hx, byteAt_floatTwo (by omega), if_neg (by omega)]
    have g2 : (punBytes 2 n (floatTwoPattern n)).getD 1 0 = 0 := by
      rw [punBytes_getD (by omega : 1 < n), INDEX_two,
        show (1 : Nat) ^^^ 1 = 0 from rfl, byteAt_floatTwo (by omega),
        if_neg (by omega)]
    have g3 : (punBytes 2 n (floatTwoPattern n)).getD (n - 2) 0 = 64 := by
      rw [punBytes_getD (by omega : n - 2 < n), INDEX_two]
      have hx : (n - 2) ^^^ 1 = n - 1 := by
        rw [xorOne]
        split_ifs <;> omega
      rw [hx, byteAt_floatTwo (by omega), if_pos rfl]
    rw [g0, g1, g2, g3]
    simp [NADINE_ENDIAN_LITTLE, NADINE_ENDIAN_SWAPCHARS]
  · have g0 : (punBytes 3 n (floatTwoPattern n)).getD 0 0 = 0 := by
      rw [punBytes_getD (by omega : 0 < n), INDEX_three]
      have hx : (n - 0 - 1) ^^^ 1 = n - 2 := by
        rw [xorOne]
        split_ifs <;> omega
      rw [hx, byteAt_floatTwo (by omega), if_neg (by omega)]
    have g1 : (punBytes 3 n (floatTwoPattern n)).getD (n - 1) 0 = 0 := by
      rw [punBytes_getD (by omega : n - 1 < n), INDEX_three]
      have hx : (n - (n - 1) - 1) ^^^ 1 = 1 := by
        rw [xorOne]
        split_ifs <;> omega
      rw [hx, byteAt_floatTwo (by omega), if_neg (by omega)]
    have g2 : (punBytes 3 n (floatTwoPattern n)).getD 1 0 = 64 := by
      rw [punBytes_getD (by omega : 1 < n), INDEX_three]
      have hx : (n - 1 - 1) ^^^ 1 = n - 1 := by
        rw [xorOne]
        split_ifs <;> omega
      rw [hx, byteAt_floatTwo (by omega), if_pos rfl]
    rw [g0, g1, g2]
    simp [NADINE_ENDIAN_BIG, NADINE_ENDIAN_SWAPCHARS]

theorem detect_float_lt {e n : Nat} (he : e < 4) (hn : 2 ∣ n) (h0 : 0 < n) :
    nadine_endian_native_float e n < 4 := by
  have h24 : n = 2 ∨ 4 ≤ n := by omega
  rcases h24 with rfl | h4
  · rw [detect_float_two he]
    split_ifs <;> omega
  · rw [detect_float_big he hn h4]
    exact he

theorem INDEX_detect_float {e n : Nat} (he : e < 4) (hn : 2 ∣ n) (h0 : 0 < n) :
    ∀ j, j < n →
      NADINE_I_INDEX (nadine_endian_native_float e n) n j = NADINE_I_INDEX e n j := by
  have h24 : n = 2 ∨ 4 ≤ n := by omega
  rcases h24 with rfl | h4
  · interval_cases e
    · intro j hj
      rw [show nadine_endian_native_float 0 2 = 0 from by decide]
    · intro j hj
      rw [show nadine_endian_native_float 1 2 = 1 from by decide]
    · intro j hj
      rw [show nadine_endian_native_float 2 2 = 1 from by decide]
      interval_cases j <;> decide
    · intro j hj
      rw [show nadine_endian_native_float 3 2 = 0 from by decide]
      interval_cases j <;> decide
  · intro j hj
    rw [detect_float_big he hn h4]

theorem NATIVE_FLOAT_eq {e n : Nat} (he : e < 4) (hn : 2 ∣ n) (h2 : 2 ≤ n) :
    NADINE_I_NATIVE_FLOAT e n = nadine_endian_native_float e n := by
  have h24 : n = 2 ∨ 4 ≤ n := by omega
  rcases h24 with rfl | h4
  · interval_cases e <;> decide
  · unfold NADINE_I_NATIVE_FLOAT
    interval_cases e
    · rw [if_pos (by
        rw [punBytes_getD (by omega : n - 1 < n), INDEX_zero,
          byteAt_floatTwo (by omega), if_pos rfl]
        omega)]
      rw [detect_float_big (by omega) hn h4]
      rfl
    · rw [if_neg (by
        rw [punBytes_getD (by omega : n - 1 < n), INDEX_one,
          byteAt_floatTwo (by omega), if_neg (by omega)]
        omega),
        if_pos (by
          rw [punBytes_getD (by omega : 0 < n), INDEX_one,
            byteAt_floatTwo (by omega), if_pos (by omega)]
          omega)]
      rw [detect_float_big (by omega) hn h4]
      rfl
    · rw [if_neg (by
        rw [punBytes_getD (by omega : n - 1 < n), INDEX_two]
        have hx : (n - 1) ^^^ 1 = n - 2 := by
          rw [xorOne]
          split_ifs <;> omega
        rw [hx, byteAt_floatTwo (by omega), if_neg (by omega)]
        omega),
        if_neg (by
          rw [punBytes_getD (by omega : 0 < n), INDEX_two,
            show (0 : Nat) ^^^ 1 = 1 from rfl, byteAt_floatTwo (by omega),
            if_neg (by omega)]
          omega)]
    · rw [if_neg (by
        rw [punBytes_getD (by omega : n - 1 < n), INDEX_three]
        have hx : (n - (n - 1) - 1) ^^^ 1 = 1 := by
          rw [xorOne]
          split_ifs <;> omega
        rw [hx, byteAt_floatTwo (by omega), if_neg (by omega)]
        omega),
        if_neg (by
          rw [punBytes_getD (by omega : 0 < n), INDEX_three]
          have hx : (n - 0 - 1) ^^^ 1 = n - 2 := by
            rw [xorOne]
            split_ifs <;> omega
          rw [hx, byteAt_floatTwo (by omega), if_neg (by omega)]
          omega)]

/-! Helper lemmas: base-256 digit sums. -/

theorem sum_byteAt (v n : Nat) :
    ∑ i ∈ Finset.range n, byteAt v i * 256 ^ i = v % 256 ^ n := by
  induction n with
  | zero => simp [Nat.mod_one]
  | succ k ih =>
    rw [Finset.sum_range_succ, ih, Nat.mod_pow_succ]
    unfold byteAt
    rw [Nat.mul_comm]

theorem sum_bytes_lt {f : Nat → Nat} {n : Nat} (hf : ∀ i, i < n → f i < 256) :
    ∑ i ∈ Finset.range n, f i * 256 ^ i < 256 ^ n := by
  induction n with
  | zero => simp
  | succ k ih =>
    rw [Finset.sum_range_succ, pow_succ]
    have h1 : ∑ i ∈ Finset.range k, f i * 256 ^ i < 256 ^ k :=
      ih fun i hi => hf i (by omega)
    have h2 : f k < 256 := hf k (by omega)
    have h3 : f k * 256 ^ k ≤ 255 * 256 ^ k :=
      Nat.mul_le_mul_right _ (by omega)
    have h4 : 0 < 256 ^ k := Nat.pow_pos (by norm_num)
    calc ∑ i ∈ Finset.range k, f i * 256 ^ i + f k * 256 ^ k
        < 256 ^ k + 255 * 256 ^ k := by omega
      _ = 256 ^ k * 256 := by ring

theorem byteAt_sum {f : Nat → Nat} {n : Nat} (hf : ∀ i, i < n → f i < 256)
    {j : Nat} (hj : j < n) :
    byteAt (∑ i ∈ Finset.range n, f i * 256 ^ i) j = f j := by
  have hsplit : ∑ i ∈ Finset.range n, f i * 256 ^ i =
      (∑ i ∈ Finset.range (j + 1), f i * 256 ^ i) +
        ∑ i ∈ Finset.Ico (j + 1) n, f i * 256 ^ i :=
    (Finset.sum_range_add_sum_Ico _ (by omega)).symm
  have hlow : ∑ i ∈ Finset.range j, f i * 256 ^ i < 256 ^ j :=
    sum_bytes_lt fun i hi => hf i (by omega)
  obtain ⟨c, hc⟩ : 256 ^ (j + 1) ∣ ∑ i ∈ Finset.Ico (j + 1) n, f i * 256 ^ i := by
    apply Finset.dvd_sum
    intro i hi
    rw [Finset.mem_Ico] at hi
    exact Dvd.dvd.mul_left (pow_dvd_pow 256 hi.1) _
  rw [hsplit, Finset.sum_range_succ, hc]
  unfold byteAt
  have e1 : ∑ i ∈ Finset.range j, f i * 256 ^ i + f j * 256 ^ j +
      256 ^ (j + 1) * c =
      (∑ i ∈ Finset.range j, f i * 256 ^ i) + 256 ^ j * (f j + 256 * c) := by
    rw [pow_succ]
    ring
  rw [e1, Nat.add_mul_div_left _ _ (Nat.pow_pos (by norm_num)),
    Nat.div_eq_of_lt hlow, Nat.zero_add, Nat.add_mul_mod_self_left,
    Nat.mod_eq_of_lt (hf j hj)]

/-! Helper lemmas: unpun, punBytes and the transform, at the value level. -/

theorem xor_lt_four {e c : Nat} (he : e < 4) (hc : c < 4) : e ^^^ c < 4 := by
  have h := Nat.xor_lt_two_pow (show e < 2 ^ 2 by simpa using he)
    (show c < 2 ^ 2 by simpa using hc)
  simpa using h

theorem unpun_punBytes {e n v : Nat} (he : e < 4) (hn : 2 ∣ n) :
    unpun e n (punBytes e n v) = v % 256 ^ n := by
  unfold unpun
  have step : ∀ i ∈ Finset.range n,
      (punBytes e n v).getD (NADINE_I_INDEX e n i) 0 * 256 ^ i =
        byteAt v i * 256 ^ i := by
    intro i hi
    rw [Finset.mem_range] at hi
    rw [punBytes_getD (INDEX_lt he hn hi), INDEX_comp he he hn hi,
      Nat.xor_self, INDEX_zero]
  rw [Finset.sum_congr rfl step, sum_byteAt]

theorem cvt_general_eq {e c n v : Nat} (he : e < 4) (hc : c < 4) (hn : 2 ∣ n) :
    unpun e n (nadine_i_xform (punBytes e n v) c) =
      ∑ i ∈ Finset.range n, byteAt v (NADINE_I_INDEX c n i) * 256 ^ i := by
  rw [xform_punBytes he hc hn]
  unfold unpun
  refine Finset.sum_congr rfl fun i hi => ?_
  rw [Finset.mem_range] at hi
  rw [punBytes_getD (INDEX_lt he hn hi), INDEX_comp (xor_lt_four he hc) he hn hi,
    Nat.xor_comm e c, Nat.xor_cancel_right]

theorem perm_sum_lt {c n v : Nat} :
    ∑ i ∈ Finset.range n, byteAt v (NADINE_I_INDEX c n i) * 256 ^ i < 256 ^ n :=
  sum_bytes_lt fun i _ => byteAt_lt _ _

theorem perm_sum_invol {c n : Nat} (hc : c < 4) (hn : 2 ∣ n) {v : Nat}
    (hv : v < 256 ^ n) :
    ∑ i ∈ Finset.range n,
      byteAt (∑ j ∈ Finset.range n, byteAt v (NADINE_I_INDEX c n j) * 256 ^ j)
        (NADINE_I_INDEX c n i) * 256 ^ i = v := by
  have step : ∀ i ∈ Finset.range n,
      byteAt (∑ j ∈ Finset.range n, byteAt v (NADINE_I_INDEX c n j) * 256 ^ j)
          (NADINE_I_INDEX c n i) * 256 ^ i = byteAt v i * 256 ^ i := by
    intro i hi
    rw [Finset.mem_range] at hi
    rw [byteAt_sum (fun j _ => byteAt_lt _ _) (INDEX_lt hc hn hi),
      INDEX_comp hc hc hn hi, Nat.xor_self, INDEX_zero]
  rw [Finset.sum_congr rfl step, sum_byteAt, Nat.mod_eq_of_lt hv]

/-! Helper lemmas: bitwise or of disjoint byte fields is addition. -/

theorem lor_two_pow_mul_add : ∀ (k a b : Nat), b < 2 ^ k → 2 ^ k * a ||| b = 2 ^ k * a + b := by
  intro k
  induction k with
  | zero =>
    intro a b hb
    have hb0 : b = 0 := Nat.lt_one_iff.mp (by simpa using hb)
    subst hb0
    simp
  | succ k ih =>
    intro a b hb
    have hb2 : b / 2 < 2 ^ k := by
      rw [pow_succ] at hb
      omega
    have htop : Nat.bit false (2 ^ k * a) = 2 ^ (k + 1) * a := by
      simp [Nat.bit, pow_succ] <;> ring
    by_cases h : b % 2 = 1
    · have hbit : Nat.bit true (b / 2) = b := by
        simp [Nat.bit] <;> omega
      rw [← hbit, ← htop, Nat.lor_bit, ih a (b / 2) hb2]
      simp [Nat.bit, pow_succ] <;> omega
    · have hbit : Nat.bit false (b / 2) = b := by
        simp [Nat.bit] <;> omega
      rw [← hbit, ← htop, Nat.lor_bit, ih a (b / 2) hb2]
      simp [Nat.bit, pow_succ] <;> omega

/-! Helper lemmas: the shift-and-mask byte reversal formulas compute the
byte-reversed digit sum. -/

theorem and_255 (x : Nat) : x &&& 255 = x % 256 := by
  have h := Nat.and_pow_two_sub_one_eq_mod x 8
  norm_num at h
  exact h

theorem and_byte_mask (x s : Nat) :
    x &&& 255 * 2 ^ s = x / 2 ^ s % 256 * 2 ^ s := by
  apply Nat.eq_of_testBit_eq
  intro i
  rw [Nat.testBit_land,
    show (255 : Nat) * 2 ^ s = (2 ^ 8 - 1) <<< s by rw [Nat.shiftLeft_eq]; norm_num,
    show x / 2 ^ s % 256 * 2 ^ s = (x >>> s % 2 ^ 8) <<< s by
      rw [Nat.shiftLeft_eq, Nat.shiftRight_eq_div_pow]; norm_num,
    Nat.testBit_shiftLeft, Nat.testBit_shiftLeft]
  by_cases hs : s ≤ i
  · rw [Nat.testBit_two_pow_sub_one, Nat.testBit_mod_two_pow, Nat.testBit_shiftRight,
      show s + (i - s) = i by omega]
    simp only [ge_iff_le, hs, decide_eq_true_eq]
    cases x.testBit i <;> cases (2 ^ 8 - 1).testBit (i - s) <;> simp [hs]
  · simp [hs]

theorem four_bytes_lor {b0 b1 b2 b3 : Nat} (h1 : b1 < 256) (h2 : b2 < 256)
    (h3 : b3 < 256) :
    b0 * 2 ^ 24 ||| b1 * 2 ^ 16 ||| b2 * 2 ^ 8 ||| b3 =
      b0 * 2 ^ 24 + b1 * 2 ^ 16 + b2 * 2 ^ 8 + b3 := by
  rw [show b0 * 2 ^ 24 = 2 ^ 24 * b0 by ring,
    lor_two_pow_mul_add 24 b0 (b1 * 2 ^ 16) (by norm_num; omega)]
  rw [show 2 ^ 24 * b0 + b1 * 2 ^ 16 = 2 ^ 16 * (2 ^ 8 * b0 + b1) by ring,
    lor_two_pow_mul_add 16 _ (b2 * 2 ^ 8) (by norm_num; omega)]
  rw [show 2 ^ 16 * (2 ^ 8 * b0 + b1) + b2 * 2 ^ 8 =
      2 ^ 8 * (2 ^ 8 * (2 ^ 8 * b0 + b1) + b2) by ring,
    lor_two_pow_mul_add 8 _ b3 (by norm_num; omega)]

theorem eight_bytes_lor {b0 b1 b2 b3 b4 b5 b6 b7 : Nat} (h1 : b1 < 256)
    (h2 : b2 < 256) (h3 : b3 < 256) (h4 : b4 < 256) (h5 : b5 < 256)
    (h6 : b6 < 256) (h7 : b7 < 256) :
    b0 * 2 ^ 56 ||| b1 * 2 ^ 48 ||| b2 * 2 ^ 40 ||| b3 * 2 ^ 32 |||
      b4 * 2 ^ 24 ||| b5 * 2 ^ 16 ||| b6 * 2 ^ 8 ||| b7 =
      b0 * 2 ^ 56 + b1 * 2 ^ 48 + b2 * 2 ^ 40 + b3 * 2 ^ 32 +
        b4 * 2 ^ 24 + b5 * 2 ^ 16 + b6 * 2 ^ 8 + b7 := by
  rw [show b0 * 2 ^ 56 = 2 ^ 56 * b0 by ring,
    lor_two_pow_mul_add 56 b0 (b1 * 2 ^ 48) (by norm_num; omega)]
  rw [show 2 ^ 56 * b0 + b1 * 2 ^ 48 = 2 ^ 48 * (2 ^ 8 * b0 + b1) by ring,
    lor_two_pow_mul_add 48 _ (b2 * 2 ^ 40) (by norm_num; omega)]
  rw [show 2 ^ 48 * (2 ^ 8 * b0 + b1) + b2 * 2 ^ 40 =
      2 ^ 40 * (2 ^ 8 * (2 ^ 8 * b0 + b1) + b2) by ring,
    lor_two_pow_mul_add 40 _ (b3 * 2 ^ 32) (by norm_num; omega)]
  rw [show 2 ^ 40 * (2 ^ 8 * (2 ^ 8 * b0 + b1) + b2) + b3 * 2 ^ 32 =
      2 ^ 32 * (2 ^ 8 * (2 ^ 8 * (2 ^ 8 * b0 + b1) + b2) + b3) by ring,
    lor_two_pow_mul_add 32 _ (b4 * 2 ^ 24) (by norm_num; omega)]
  rw [show 2 ^ 32 * (2 ^ 8 * (2 ^ 8 * (2 ^ 8 * b0 + b1) + b2) + b3) +
        b4 * 2 ^ 24 =
      2 ^ 24 * (2 ^ 8 * (2 ^ 8 * (2 ^ 8 * (2 ^ 8 * b0 + b1) + b2) + b3) + b4) by
        ring,
    lor_two_pow_mul_add 24 _ (b5 * 2 ^ 16) (by norm_num; omega)]
  rw [show 2 ^ 24 * (2 ^ 8 * (2 ^ 8 * (2 ^ 8 * (2 ^ 8 * b0 + b1) + b2) + b3) +
          b4) + b5 * 2 ^ 16 =
      2 ^ 16 * (2 ^ 8 * (2 ^ 8 * (2 ^ 8 * (2 ^ 8 * (2 ^ 8 * b0 + b1) + b2) +
          b3) + b4) + b5) by ring,
    lor_two_pow_mul_add 16 _ (b6 * 2 ^ 8) (by norm_num; omega)]
  rw [show 2 ^ 16 * (2 ^ 8 * (2 ^ 8 * (2 ^ 8 * (2 ^ 8 * (2 ^ 8 * b0 + b1) +
            b2) + b3) + b4) + b5) + b6 * 2 ^ 8 =
      2 ^ 8 * (2 ^ 8 * (2 ^ 8 * (2 ^ 8 * (2 ^ 8 * (2 ^ 8 * (2 ^ 8 * b0 + b1) +
            b2) + b3) + b4) + b5) + b6) by ring,
    lor_two_pow_mul_add 8 _ b7 (by norm_num; omega)]

theorem WREV2_eq (x : Nat) :
    NADINE_I_WREV2 x = byteAt x 1 + byteAt x 0 * 256 := by
  unfold NADINE_I_WREV2
  rw [and_255, show (0xFF00 : Nat) = 255 * 2 ^ 8 by norm_num, and_byte_mask,
    Nat.shiftLeft_eq, Nat.shiftRight_eq_div_pow,
    Nat.mul_div_cancel _ (show (0 : Nat) < 2 ^ 8 by norm_num),
    show x % 256 * 2 ^ 8 = 2 ^ 8 * (x % 256) by ring,
    lor_two_pow_mul_add 8 (x % 256) (x / 2 ^ 8 % 256) (by norm_num; omega)]
  unfold byteAt
  norm_num
  omega

theorem WREV4_eq (x : Nat) :
    NADINE_I_WREV4 x = byteAt x 3 + byteAt x 2 * 256 + byteAt x 1 * 256 ^ 2 +
      byteAt x 0 * 256 ^ 3 := by
  unfold NADINE_I_WREV4
  rw [and_255,
    show (0x0000FF00 : Nat) = 255 * 2 ^ 8 by norm_num,
    show (0x00FF0000 : Nat) = 255 * 2 ^ 16 by norm_num,
    show (0xFF000000 : Nat) = 255 * 2 ^ 24 by norm_num,
    and_byte_mask, and_byte_mask, and_byte_mask,
    Nat.shiftLeft_eq, Nat.shiftLeft_eq, Nat.shiftRight_eq_div_pow,
    Nat.shiftRight_eq_div_pow,
    show x / 2 ^ 8 % 256 * 2 ^ 8 * 2 ^ 8 = x / 2 ^ 8 % 256 * 2 ^ 16 by ring,
    show x / 2 ^ 16 % 256 * 2 ^ 16 = x / 2 ^ 16 % 256 * 2 ^ 8 * 2 ^ 8 by ring,
    Nat.mul_div_cancel _ (show (0 : Nat) < 2 ^ 8 by norm_num),
    Nat.mul_div_cancel _ (show (0 : Nat) < 2 ^ 24 by norm_num),
    four_bytes_lor (Nat.mod_lt _ (by norm_num)) (Nat.mod_lt _ (by norm_num))
      (Nat.mod_lt _ (by norm_num)),
    Nat.mod_eq_of_lt (by norm_num; omega)]
  unfold byteAt
  norm_num
  omega

theorem WREV8_eq (x : Nat) :
    NADINE_I_WREV8 x = byteAt x 7 + byteAt x 6 * 256 + byteAt x 5 * 256 ^ 2 +
      byteAt x 4 * 256 ^ 3 + byteAt x 3 * 256 ^ 4 + byteAt x 2 * 256 ^ 5 +
      byteAt x 1 * 256 ^ 6 + byteAt x 0 * 256 ^ 7 := by
  unfold NADINE_I_WREV8
  rw [and_255,
    show (0x000000000000FF00 : Nat) = 255 * 2 ^ 8 by norm_num,
    show (0x0000000000FF0000 : Nat) = 255 * 2 ^ 16 by norm_num,
    show (0x00000000FF000000 : Nat) = 255 * 2 ^ 24 by norm_num,
    show (0x000000FF00000000 : Nat) = 255 * 2 ^ 32 by norm_num,
    show (0x0000FF0000000000 : Nat) = 255 * 2 ^ 40 by norm_num,
    show (0x00FF000000000000 : Nat) = 255 * 2 ^ 48 by norm_num,
    show (0xFF00000000000000 : Nat) = 255 * 2 ^ 56 by norm_num,
    and_byte_mask, and_byte_mask, and_byte_mask, and_byte_mask, and_byte_mask,
    and_byte_mask, and_byte_mask,
    Nat.shiftLeft_eq, Nat.shiftLeft_eq, Nat.shiftLeft_eq, Nat.shiftLeft_eq,
    Nat.shiftRight_eq_div_pow, Nat.shiftRight_eq_div_pow,
    Nat.shiftRight_eq_div_pow, Nat.shiftRight_eq_div_pow,
    show x / 2 ^ 8 % 256 * 2 ^ 8 * 2 ^ 40 = x / 2 ^ 8 % 256 * 2 ^ 48 by ring,
    show x / 2 ^ 16 % 256 * 2 ^ 16 * 2 ^ 24 = x / 2 ^ 16 % 256 * 2 ^ 40 by ring,
    show x / 2 ^ 24 % 256 * 2 ^ 24 * 2 ^ 8 = x / 2 ^ 24 % 256 * 2 ^ 32 by ring,
    show x / 2 ^ 32 % 256 * 2 ^ 32 = x / 2 ^ 32 % 256 * 2 ^ 24 * 2 ^ 8 by ring,
    show x / 2 ^ 40 % 256 * 2 ^ 40 = x / 2 ^ 40 % 256 * 2 ^ 16 * 2 ^ 24 by ring,
    show x / 2 ^ 48 % 256 * 2 ^ 48 = x / 2 ^ 48 % 256 * 2 ^ 8 * 2 ^ 40 by ring,
    Nat.mul_div_cancel _ (show (0 : Nat) < 2 ^ 8 by norm_num),
    Nat.mul_div_cancel _ (show (0 : Nat) < 2 ^ 24 by norm_num),
    Nat.mul_div_cancel _ (show (0 : Nat) < 2 ^ 40 by norm_num),
    Nat.mul_div_cancel _ (show (0 : Nat) < 2 ^ 56 by norm_num),
    eight_bytes_lor (Nat.mod_lt _ (by norm_num)) (Nat.mod_lt _ (by norm_num))
      (Nat.mod_lt _ (by norm_num)) (Nat.mod_lt _ (by norm_num))
      (Nat.mod_lt _ (by norm_num)) (Nat.mod_lt _ (by norm_num))
      (Nat.mod_lt _ (by norm_num)),
    Nat.mod_eq_of_lt (by norm_num; omega)]
  unfold byteAt
  norm_num
  omega

theorem WREV2_as_sum (x : Nat) :
    NADINE_I_WREV2 x =
      ∑ i ∈ Finset.range 2, byteAt x (NADINE_I_INDEX 1 2 i) * 256 ^ i := by
  rw [WREV2_eq, Finset.sum_range_succ, Finset.sum_range_succ,
    Finset.sum_range_zero, INDEX_one, INDEX_one]
  norm_num

theorem WREV4_as_sum (x : Nat) :
    NADINE_I_WREV4 x =
      ∑ i ∈ Finset.range 4, byteAt x (NADINE_I_INDEX 1 4 i) * 256 ^ i := by
  rw [WREV4_eq, Finset.sum_range_succ, Finset.sum_range_succ,
    Finset.sum_range_succ, Finset.sum_range_succ, Finset.sum_range_zero,
    INDEX_one, INDEX_one, INDEX_one, INDEX_one]
  norm_num

theorem WREV8_as_sum (x : Nat) :
    NADINE_I_WREV8 x =
      ∑ i ∈ Finset.range 8, byteAt x (NADINE_I_INDEX 1 8 i) * 256 ^ i := by
  rw [WREV8_eq, Finset.sum_range_succ, Finset.sum_range_succ,
    Finset.sum_range_succ, Finset.sum_range_succ, Finset.sum_range_succ,
    Finset.sum_range_succ, Finset.sum_range_succ, Finset.sum_range_succ,
    Finset.sum_range_zero, INDEX_one, INDEX_one, INDEX_one, INDEX_one,
    INDEX_one, INDEX_one, INDEX_one, INDEX_one]
  norm_num

/-! Helper lemmas: the conversion functions compute the index permutation of
the transform code on the byte digits of the value. -/

theorem convert_eq_perm {e n endian v : Nat} (he : e < 4) (ho : endian < 4)
    (hn : 2 ∣ n) (h0 : 0 < n) (hv : v < 256 ^ n) :
    nadine_convert e n endian v =
      ∑ i ∈ Finset.range n,
        byteAt v (NADINE_I_INDEX (NADINE_I_NATIVE_INT e n ^^^ endian) n i) *
          256 ^ i := by
  have hd4 : NADINE_I_NATIVE_INT e n < 4 := by
    rw [NATIVE_INT_eq]
    exact detect_int_lt he hn h0
  simp only [nadine_convert]
  by_cases hne : NADINE_I_NATIVE_INT e n = endian
  · rw [if_pos (Or.inl hne), hne, Nat.xor_self]
    have step : ∀ i ∈ Finset.range n,
        byteAt v (NADINE_I_INDEX 0 n i) * 256 ^ i = byteAt v i * 256 ^ i := by
      intro i _
      rw [INDEX_zero]
    rw [Finset.sum_congr rfl step, sum_byteAt, Nat.mod_eq_of_lt hv]
  · rw [if_neg (not_or.mpr ⟨hne, by omega⟩)]
    by_cases hc1 : NADINE_I_NATIVE_INT e n ^^^ endian = 1
    · rw [if_pos hc1, hc1]
      by_cases h2 : n = 2
      · subst h2
        rw [if_pos rfl, WREV2_as_sum]
      · rw [if_neg h2]
        by_cases h4 : n = 4
        · subst h4
          rw [if_pos rfl, WREV4_as_sum]
        · rw [if_neg h4]
          by_cases h8 : n = 8
          · subst h8
            rw [if_pos rfl, WREV8_as_sum]
          · rw [if_neg h8]
            unfold nadine_i_cvt_general
            rw [hc1]
            exact cvt_general_eq he (by omega) hn
    · rw [if_neg hc1]
      unfold nadine_i_cvt_general
      exact cvt_general_eq he (xor_lt_four hd4 ho) hn

theorem convert_float_eq_perm {e n endian v : Nat} (he : e < 4) (ho : endian < 4)
    (hn : 2 ∣ n) (h0 : 0 < n) :
    nadine_convert_float e n endian v =
      ∑ i ∈ Finset.range n,
        byteAt v (NADINE_I_INDEX (NADINE_I_NATIVE_FLOAT e n ^^^ endian) n i) *
          256 ^ i := by
  have hd4 : NADINE_I_NATIVE_FLOAT e n < 4 := by
    rw [NATIVE_FLOAT_eq he hn (by omega)]
    exact detect_float_lt he hn h0
  unfold nadine_convert_float
  exact cvt_general_eq he (xor_lt_four hd4 ho) hn

/-! Helper lemmas: the shift strategy read and write. -/

theorem getD_lt_256 {src : List Nat} (hb : ∀ x ∈ src, x < 256) (p : Nat) :
    src.getD p 0 < 256 := by
  rcases Nat.lt_or_ge p src.length with h | h
  · rw [List.getD_eq_getElem _ _ h]
    exact hb _ (List.getElem_mem h)
  · rw [List.getD_eq_default _ _ h]
    norm_num

theorem shift_mod_eq_byteAt (v k : Nat) : v >>> (8 * k) % 256 = byteAt v k := by
  rw [Nat.shiftRight_eq_div_pow]
  unfold byteAt
  rw [pow_mul]
  norm_num

theorem read_shift_eq_sum {endian n : Nat} {src : List Nat}
    (hb : ∀ x ∈ src, x < 256) :
    nadine_read_shift endian n src =
      ∑ i ∈ Finset.range n, src.getD (NADINE_I_INDEX endian n i) 0 * 256 ^ i := by
  unfold nadine_read_shift
  suffices h : ∀ k, k ≤ n →
      (List.range k).foldl
        (fun v i =>
          v ||| (src.getD (NADINE_I_INDEX endian n i) 0 <<< (8 * i)) % 2 ^ (8 * n))
        0 =
      ∑ i ∈ Finset.range k, src.getD (NADINE_I_INDEX endian n i) 0 * 256 ^ i from
    h n le_rfl
  intro k
  induction k with
  | zero =>
    intro _
    simp
  | succ k ih =>
    intro hk
    rw [List.range_succ, List.foldl_append, ih (by omega)]
    simp only [List.foldl_cons, List.foldl_nil]
    have hb256 : src.getD (NADINE_I_INDEX endian n k) 0 < 256 := getD_lt_256 hb _
    have hmod : (src.getD (NADINE_I_INDEX endian n k) 0 <<< (8 * k)) % 2 ^ (8 * n) =
        src.getD (NADINE_I_INDEX endian n k) 0 * 2 ^ (8 * k) := by
      rw [Nat.shiftLeft_eq, Nat.mod_eq_of_lt]
      calc src.getD (NADINE_I_INDEX endian n k) 0 * 2 ^ (8 * k)
          < 256 * 2 ^ (8 * k) :=
            (Nat.mul_lt_mul_right (Nat.pow_pos (by norm_num))).mpr hb256
        _ = 2 ^ (8 * (k + 1)) := by
            rw [show 8 * (k + 1) = 8 + 8 * k by ring, pow_add]
            norm_num
        _ ≤ 2 ^ (8 * n) := Nat.pow_le_pow_right (by norm_num) (by omega)
    rw [hmod, Finset.sum_range_succ]
    have hsum : ∑ i ∈ Finset.range k, src.getD (NADINE_I_INDEX endian n i) 0 * 256 ^ i
        < 2 ^ (8 * k) := by
      have h1 : ∑ i ∈ Finset.range k,
          src.getD (NADINE_I_INDEX endian n i) 0 * 256 ^ i < 256 ^ k :=
        sum_bytes_lt fun i _ => getD_lt_256 hb (NADINE_I_INDEX endian n i)
      rwa [show (256 : Nat) ^ k = 2 ^ (8 * k) by
        rw [show (256 : Nat) = 2 ^ 8 by norm_num, ← pow_mul]] at h1
    rw [show src.getD (NADINE_I_INDEX endian n k) 0 * 2 ^ (8 * k) =
        2 ^ (8 * k) * src.getD (NADINE_I_INDEX endian n k) 0 by ring,
      Nat.lor_comm, lor_two_pow_mul_add (8 * k) _ _ hsum,
      show (256 : Nat) ^ k = 2 ^ (8 * k) by
        rw [show (256 : Nat) = 2 ^ 8 by norm_num, ← pow_mul]]
    ring

theorem write_shift_length (endian n : Nat) (dst : List Nat) (v : Nat) :
    (nadine_write_shift endian n dst v).length = dst.length := by
  unfold nadine_write_shift
  suffices h : ∀ k,
      ((List.range k).foldl
        (fun d i => d.set (NADINE_I_INDEX endian n i) (v >>> (8 * i) % 256))
        dst).length = dst.length from h n
  intro k
  induction k with
  | zero => simp
  | succ k ih =>
    rw [List.range_succ, List.foldl_append]
    simp only [List.foldl_cons, List.foldl_nil, List.length_set]
    exact ih

theorem write_shift_getD {endian n : Nat} (he : endian < 4) (hn : 2 ∣ n)
    {dst : List Nat} (hd : n ≤ dst.length) (v : Nat) {p : Nat} (hp : p < n) :
    (nadine_write_shift endian n dst v).getD p 0 =
      byteAt v (NADINE_I_INDEX endian n p) := by
  unfold nadine_write_shift
  suffices h : ∀ k, k ≤ n →
      ((List.range k).foldl
        (fun d i => d.set (NADINE_I_INDEX endian n i) (v >>> (8 * i) % 256))
        dst).length = dst.length ∧
      ((List.range k).foldl
        (fun d i => d.set (NADINE_I_INDEX endian n i) (v >>> (8 * i) % 256))
        dst).getD p 0 =
        if NADINE_I_INDEX endian n p < k then byteAt v (NADINE_I_INDEX endian n p)
        else dst.getD p 0 by
    rw [(h n le_rfl).2, if_pos (INDEX_lt he hn hp)]
  intro k
  induction k with
  | zero =>
    intro _
    simp
  | succ k ih =>
    intro hk
    obtain ⟨ihlen, ihget⟩ := ih (by omega)
    rw [List.range_succ, List.foldl_append]
    simp only [List.foldl_cons, List.foldl_nil]
    constructor
    · rw [List.length_set, ihlen]
    · rw [set_getD (by rw [ihlen]; exact lt_of_lt_of_le (INDEX_lt he hn (by omega)) hd)]
      by_cases hpk : p = NADINE_I_INDEX endian n k
      · have hip : NADINE_I_INDEX endian n p = k := by
          rw [hpk, INDEX_comp he he hn (by omega), Nat.xor_self, INDEX_zero]
        rw [if_pos hpk, if_pos (by omega), hip, shift_mod_eq_byteAt]
      · have hne : NADINE_I_INDEX endian n p ≠ k := by
          intro hcontra
          exact hpk (by
            rw [← hcontra, INDEX_comp he he hn hp, Nat.xor_self, INDEX_zero])
        rw [if_neg hpk, ihget]
        by_cases hlt : NADINE_I_INDEX endian n p < k
        · rw [if_pos hlt, if_pos (by omega)]
        · rw [if_neg hlt, if_neg (by omega)]

theorem write_shift_eq_punBytes {endian n : Nat} (he : endian < 4) (hn : 2 ∣ n)
    {dst : List Nat} (hd : dst.length = n) (v : Nat) :
    nadine_write_shift endian n dst v = punBytes endian n v := by
  apply ext_getD
  · rw [write_shift_length, punBytes_length, hd]
  · intro p hp
    rw [write_shift_length, hd] at hp
    rw [write_shift_getD he hn (by omega) v hp, punBytes_getD hp]

/-! Helper lemmas: the copy strategy read and write. -/

theorem read_copy_eq {e endian n : Nat} (he : e < 4) (ho : endian < 4)
    (hn : 2 ∣ n) (h0 : 0 < n) {src : List Nat} (hs : src.length = n) :
    nadine_read_copy e endian n src =
      ∑ i ∈ Finset.range n, src.getD (NADINE_I_INDEX endian n i) 0 * 256 ^ i := by
  unfold nadine_read_copy unpun
  rw [show List.take n src = src from by rw [← hs]; exact List.take_length src]
  have hd4 : NADINE_I_NATIVE_INT e n < 4 := by
    rw [NATIVE_INT_eq]
    exact detect_int_lt he hn h0
  have hc4 : NADINE_I_NATIVE_INT e n ^^^ endian < 4 := xor_lt_four hd4 ho
  have hoe4 : endian ^^^ e < 4 := xor_lt_four ho he
  refine Finset.sum_congr rfl fun i hi => ?_
  rw [Finset.mem_range] at hi
  rw [nadine_i_xform_getD hc4 (by rw [hs]; exact hn)
    (by rw [hs]; exact INDEX_lt he hn hi)]
  simp only [hs]
  rw [INDEX_comp hc4 he hn hi]
  have hidx : NADINE_I_INDEX (NADINE_I_NATIVE_INT e n ^^^ endian ^^^ e) n i =
      NADINE_I_INDEX endian n i := by
    rw [Nat.xor_assoc, ← INDEX_comp hd4 hoe4 hn hi, NATIVE_INT_eq,
      INDEX_detect_int he hn h0 _ (INDEX_lt hoe4 hn hi),
      INDEX_comp he hoe4 hn hi, Nat.xor_comm endian e, Nat.xor_cancel_left]
  rw [hidx]

theorem write_copy_eq_punBytes {e endian n : Nat} (he : e < 4) (ho : endian < 4)
    (hn : 2 ∣ n) (h0 : 0 < n) {dst : List Nat} (hd : dst.length = n) (v : Nat) :
    nadine_write_copy e endian n dst v = punBytes endian n v := by
  unfold nadine_write_copy
  rw [List.drop_eq_nil_of_le (by omega), List.append_nil]
  have hd4 : NADINE_I_NATIVE_INT e n < 4 := by
    rw [NATIVE_INT_eq]
    exact detect_int_lt he hn h0
  have hc4 : NADINE_I_NATIVE_INT e n ^^^ endian < 4 := xor_lt_four hd4 ho
  rw [xform_punBytes he hc4 hn]
  apply ext_getD
  · rw [punBytes_length, punBytes_length]
  · intro p hp
    rw [punBytes_length] at hp
    rw [punBytes_getD hp, punBytes_getD hp]
    have hidx : NADINE_I_INDEX (e ^^^ (NADINE_I_NATIVE_INT e n ^^^ endian)) n p =
        NADINE_I_INDEX endian n p := by
      rw [← INDEX_comp he hc4 hn hp, ← INDEX_comp hd4 ho hn hp, NATIVE_INT_eq,
        INDEX_detect_int he hn h0 _ (INDEX_lt ho hn hp),
        INDEX_comp he he hn (INDEX_lt ho hn hp), Nat.xor_self, INDEX_zero]
    rw [hidx]

theorem revLoopAux_full (l : List Nat) :
    revLoopAux l 0 (l.length - 1) = l.reverse := by
  rcases Nat.eq_zero_or_pos l.length with hz | hpos
  · obtain rfl := List.length_eq_zero.mp hz
    rw [revLoopAux]
    simp
  · apply ext_getD
    · rw [revLoopAux_length, List.length_reverse]
    · intro p hp
      rw [revLoopAux_length] at hp
      rw [revLoopAux_getD _ _ _ (by omega) p, if_pos ⟨Nat.zero_le p, by omega⟩,
        reverse_getD hp]
      congr 1
      omega

/-! The claims. -/

/-- C1: for every supported type (an n-byte integer with n even and positive,
or a floating-point format of the same widths, both acting on bit patterns),
every valid endianness tag and every machine native order, applying the
conversion twice with the same tag is the identity:
nadine_convert endian (nadine_convert endian v) = v, and likewise for
nadine_convert_float. The native order is known (the machine order is one of
the four supported tags, so the detector never returns the unknown
sentinel). -/
theorem C1_convert_involution {e ef n endian v : Nat} (he : e < 4)
    (hef : ef < 4) (ho : endian < 4) (hn : 2 ∣ n) (h0 : 0 < n)
    (hv : v < 256 ^ n) :
    nadine_convert e n endian (nadine_convert e n endian v) = v ∧
    nadine_convert_float ef n endian (nadine_convert_float ef n endian v) = v := by
  have hd4 : NADINE_I_NATIVE_INT e n < 4 := by
    rw [NATIVE_INT_eq]
    exact detect_int_lt he hn h0
  have hdf4 : NADINE_I_NATIVE_FLOAT ef n < 4 := by
    rw [NATIVE_FLOAT_eq hef hn (by omega)]
    exact detect_float_lt hef hn h0
  constructor
  · rw [convert_eq_perm he ho hn h0
      (by rw [convert_eq_perm he ho hn h0 hv]; exact perm_sum_lt),
      convert_eq_perm he ho hn h0 hv]
    exact perm_sum_invol (xor_lt_four hd4 ho) hn hv
  · rw [convert_float_eq_perm hef ho hn h0, convert_float_eq_perm hef ho hn h0]
    exact perm_sum_invol (xor_lt_four hdf4 ho) hn hv

/-- Witness for C1: both involutions at machine order little, width 4, tag
big, value 0x00010203. -/
theorem C1_convert_involution_witness :
    nadine_convert 0 4 1 (nadine_convert 0 4 1 66051) = 66051 ∧
    nadine_convert_float 0 4 1 (nadine_convert_float 0 4 1 66051) = 66051 :=
  C1_convert_involution (by decide) (by decide) (by decide) (by decide)
    (by decide) (by decide)

/-- C2: writing a value into an n-byte buffer under an order tag and reading
the buffer back under the same tag reproduces the value exactly, for both the
shift-and-mask strategy and the copy-then-transform strategy, on every
machine whose native order is one of the four supported tags. -/
theorem C2_write_read_roundtrip {e endian n v : Nat} {dst : List Nat}
    (he : e < 4) (ho : endian < 4) (hn : 2 ∣ n) (h0 : 0 < n)
    (hv : v < 256 ^ n) (hd : dst.length = n) :
    nadine_read_shift endian n (nadine_write_shift endian n dst v) = v ∧
    nadine_read_copy e endian n (nadine_write_copy e endian n dst v) = v := by
  have hsum : ∑ i ∈ Finset.range n,
      (punBytes endian n v).getD (NADINE_I_INDEX endian n i) 0 * 256 ^ i = v := by
    have step : ∀ i ∈ Finset.range n,
        (punBytes endian n v).getD (NADINE_I_INDEX endian n i) 0 * 256 ^ i =
          byteAt v i * 256 ^ i := by
      intro i hi
      rw [Finset.mem_range] at hi
      rw [punBytes_getD (INDEX_lt ho hn hi), INDEX_comp ho ho hn hi,
        Nat.xor_self, INDEX_zero]
    rw [Finset.sum_congr rfl step, sum_byteAt, Nat.mod_eq_of_lt hv]
  constructor
  · rw [write_shift_eq_punBytes ho hn hd v, read_shift_eq_sum punBytes_mem_lt,
      hsum]
  · rw [write_copy_eq_punBytes he ho hn h0 hd v,
      read_copy_eq he ho hn h0 (punBytes_length endian n v), hsum]

/-- Witness for C2: round trip of 0x0102 through a 2-byte buffer under tag
big on a little-endian machine. -/
theorem C2_write_read_roundtrip_witness :
    nadine_read_shift 1 2 (nadine_write_shift 1 2 [0, 0] 258) = 258 ∧
    nadine_read_copy 0 1 2 (nadine_write_copy 0 1 2 [0, 0] 258) = 258 :=
  C2_write_read_roundtrip (by decide) (by decide) (by decide) (by decide)
    (by decide) (by decide)

/-- C3: the two read and write strategies are equivalent: on every machine
with a supported native order, for every valid tag, the shift-and-mask read
returns the same value as the copy-then-transform read on the same source
bytes, and the two writes store the same bytes. -/
theorem C3_strategies_equivalent {e endian n v : Nat} {src dst : List Nat}
    (he : e < 4) (ho : endian < 4) (hn : 2 ∣ n) (h0 : 0 < n)
    (hsrc : src.length = n) (hbytes : ∀ x ∈ src, x < 256)
    (hdst : dst.length = n) :
    nadine_read_shift endian n src = nadine_read_copy e endian n src ∧
    nadine_write_shift endian n dst v = nadine_write_copy e endian n dst v := by
  constructor
  · rw [read_shift_eq_sum hbytes, read_copy_eq he ho hn h0 hsrc]
  · rw [write_shift_eq_punBytes ho hn hdst v,
      write_copy_eq_punBytes he ho hn h0 hdst v]

/-- Witness for C3: both strategies agree at machine order big, tag 316,
width 4. -/
theorem C3_strategies_equivalent_witness :
    nadine_read_shift 2 4 [1, 2, 3, 4] = nadine_read_copy 1 2 4 [1, 2, 3, 4] ∧
    nadine_write_shift 2 4 [0, 0, 0, 0] 66051 =
      nadine_write_copy 1 2 4 [0, 0, 0, 0] 66051 :=
  C3_strategies_equivalent (by decide) (by decide) (by decide) (by decide)
    (by decide) (by decide) (by decide)

/-- C4: writing the 32-bit value 0x01020304 into a 4-byte buffer stores the
bytes 04 03 02 01 under order little, 01 02 03 04 under order big,
02 01 04 03 under order big with swap-chars (PDP-11) and 03 04 01 02 under
order little with swap-chars (Honeywell 316), for both write strategies and
regardless of the native order e of the host. -/
theorem C4_layout_0x01020304 {e : Nat} {dst : List Nat} (he : e < 4)
    (hd : dst.length = 4) :
    nadine_write_shift NADINE_ENDIAN_LITTLE 4 dst 16909060 = [4, 3, 2, 1] ∧
    nadine_write_shift NADINE_ENDIAN_BIG 4 dst 16909060 = [1, 2, 3, 4] ∧
    nadine_write_shift (NADINE_ENDIAN_BIG ||| NADINE_ENDIAN_SWAPCHARS) 4 dst
      16909060 = [2, 1, 4, 3] ∧
    nadine_write_shift (NADINE_ENDIAN_LITTLE ||| NADINE_ENDIAN_SWAPCHARS) 4 dst
      16909060 = [3, 4, 1, 2] ∧
    nadine_write_copy e NADINE_ENDIAN_LITTLE 4 dst 16909060 = [4, 3, 2, 1] ∧
    nadine_write_copy e NADINE_ENDIAN_BIG 4 dst 16909060 = [1, 2, 3, 4] ∧
    nadine_write_copy e (NADINE_ENDIAN_BIG ||| NADINE_ENDIAN_SWAPCHARS) 4 dst
      16909060 = [2, 1, 4, 3] ∧
    nadine_write_copy e (NADINE_ENDIAN_LITTLE ||| NADINE_ENDIAN_SWAPCHARS) 4 dst
      16909060 = [3, 4, 1, 2] := by
  refine ⟨?_, ?_, ?_, ?_, ?_, ?_, ?_, ?_⟩
  · rw [write_shift_eq_punBytes (by decide) (by decide) hd]
    decide
  · rw [write_shift_eq_punBytes (by decide) (by decide) hd]
    decide
  · rw [write_shift_eq_punBytes (by decide) (by decide) hd]
    decide
  · rw [write_shift_eq_punBytes (by decide) (by decide) hd]
    decide
  · rw [write_copy_eq_punBytes he (by decide) (by decide) (by decide) hd]
    decide
  · rw [write_copy_eq_punBytes he (by decide) (by decide) (by decide) hd]
    decide
  · rw [write_copy_eq_punBytes he (by decide) (by decide) (by decide) hd]
    decide
  · rw [write_copy_eq_punBytes he (by decide) (by decide) (by decide) hd]
    decide

/-- Witness for C4: the layouts on a little-endian host with a zeroed
4-byte buffer. -/
theorem C4_layout_0x01020304_witness :
    nadine_write_shift NADINE_ENDIAN_LITTLE 4 [0, 0, 0, 0] 16909060 =
      [4, 3, 2, 1] ∧
    nadine_write_shift NADINE_ENDIAN_BIG 4 [0, 0, 0, 0] 16909060 =
      [1, 2, 3, 4] ∧
    nadine_write_shift (NADINE_ENDIAN_BIG ||| NADINE_ENDIAN_SWAPCHARS) 4
      [0, 0, 0, 0] 16909060 = [2, 1, 4, 3] ∧
    nadine_write_shift (NADINE_ENDIAN_LITTLE ||| NADINE_ENDIAN_SWAPCHARS) 4
      [0, 0, 0, 0] 16909060 = [3, 4, 1, 2] ∧
    nadine_write_copy 0 NADINE_ENDIAN_LITTLE 4 [0, 0, 0, 0] 16909060 =
      [4, 3, 2, 1] ∧
    nadine_write_copy 0 NADINE_ENDIAN_BIG 4 [0, 0, 0, 0] 16909060 =
      [1, 2, 3, 4] ∧
    nadine_write_copy 0 (NADINE_ENDIAN_BIG ||| NADINE_ENDIAN_SWAPCHARS) 4
      [0, 0, 0, 0] 16909060 = [2, 1, 4, 3] ∧
    nadine_write_copy 0 (NADINE_ENDIAN_LITTLE ||| NADINE_ENDIAN_SWAPCHARS) 4
      [0, 0, 0, 0] 16909060 = [3, 4, 1, 2] :=
  C4_layout_0x01020304 (by decide) (by decide)

/-- C5: converting with the detected native order as the tag is the identity,
for the integer conversion (which takes the explicit native-equals-target
early return) and for the floating-point conversion (which has no such early
return and goes through the full pun, transform with code zero, unpun
path). -/
theorem C5_native_identity {e ef n v : Nat} (he : e < 4) (hef : ef < 4)
    (hn : 2 ∣ n) (h0 : 0 < n) (hv : v < 256 ^ n) :
    nadine_convert e n (nadine_endian_native e n) v = v ∧
    nadine_convert_float ef n (nadine_endian_native_float ef n) v = v := by
  constructor
  · simp only [nadine_convert]
    rw [if_pos (Or.inl (NATIVE_INT_eq e n))]
  · unfold nadine_convert_float
    rw [NATIVE_FLOAT_eq hef hn (by omega), Nat.xor_self, nadine_i_xform_zero,
      unpun_punBytes hef hn, Nat.mod_eq_of_lt hv]

/-- Witness for C5: identity on a big-endian host at width 4. -/
theorem C5_native_identity_witness :
    nadine_convert 1 4 (nadine_endian_native 1 4) 66051 = 66051 ∧
    nadine_convert_float 1 4 (nadine_endian_native_float 1 4) 66051 = 66051 :=
  C5_native_identity (by decide) (by decide) (by decide) (by decide) (by decide)

/-- C6: the integer-domain native order detector probes the in-memory bytes
of the value 1 and returns little when byte 0 is nonzero, else big when byte
n - 1 is nonzero, else little-with-swap-chars (316) when byte 1 is nonzero,
else big-with-swap-chars (PDP) when byte n - 2 is nonzero, else the unknown
sentinel; it is total and always returns one of these five values. -/
theorem C6_detector_cases (e n : Nat) :
    ((punBytes e n 1).getD 0 0 ≠ 0 →
      nadine_endian_native e n = NADINE_ENDIAN_LITTLE) ∧
    ((punBytes e n 1).getD 0 0 = 0 → (punBytes e n 1).getD (n - 1) 0 ≠ 0 →
      nadine_endian_native e n = NADINE_ENDIAN_BIG) ∧
    ((punBytes e n 1).getD 0 0 = 0 → (punBytes e n 1).getD (n - 1) 0 = 0 →
      (punBytes e n 1).getD 1 0 ≠ 0 →
      nadine_endian_native e n =
        (NADINE_ENDIAN_LITTLE ||| NADINE_ENDIAN_SWAPCHARS)) ∧
    ((punBytes e n 1).getD 0 0 = 0 → (punBytes e n 1).getD (n - 1) 0 = 0 →
      (punBytes e n 1).getD 1 0 = 0 → (punBytes e n 1).getD (n - 2) 0 ≠ 0 →
      nadine_endian_native e n =
        (NADINE_ENDIAN_BIG ||| NADINE_ENDIAN_SWAPCHARS)) ∧
    ((punBytes e n 1).getD 0 0 = 0 → (punBytes e n 1).getD (n - 1) 0 = 0 →
      (punBytes e n 1).getD 1 0 = 0 → (punBytes e n 1).getD (n - 2) 0 = 0 →
      nadine_endian_native e n = NADINE_ENDIAN_UNKNOWN) ∧
    (nadine_endian_native e n = NADINE_ENDIAN_LITTLE ∨
      nadine_endian_native e n = NADINE_ENDIAN_BIG ∨
      nadine_endian_native e n =
        (NADINE_ENDIAN_LITTLE ||| NADINE_ENDIAN_SWAPCHARS) ∨
      nadine_endian_native e n =
        (NADINE_ENDIAN_BIG ||| NADINE_ENDIAN_SWAPCHARS) ∨
      nadine_endian_native e n = NADINE_ENDIAN_UNKNOWN) := by
  unfold nadine_endian_native probeInt
  simp only [punBytes_length]
  refine ⟨?_, ?_, ?_, ?_, ?_, ?_⟩
  · intro h0
    rw [if_pos h0]
  · intro h0 h1
    rw [if_neg (not_not_intro h0), if_pos h1]
  · intro h0 h1 h2
    rw [if_neg (not_not_intro h0), if_neg (not_not_intro h1), if_pos h2]
  · intro h0 h1 h2 h3
    rw [if_neg (not_not_intro h0), if_neg (not_not_intro h1),
      if_neg (not_not_intro h2), if_pos h3]
  · intro h0 h1 h2 h3
    rw [if_neg (not_not_intro h0), if_neg (not_not_intro h1),
      if_neg (not_not_intro h2), if_neg (not_not_intro h3)]
  · split_ifs <;> tauto

/-- Witness for C6: on a little-endian machine at width 4 the detector
answers little. -/
theorem C6_detector_cases_witness :
    nadine_endian_native 0 4 = NADINE_ENDIAN_LITTLE :=
  (C6_detector_cases 0 4).1 (by decide)

/-- C7: nadine_i_xform realizes exactly the permutation of the transform
code: the span is fully reversed if and only if bit 0 of the code is set,
adjacent pairs are swapped if and only if bit 1 is set, and the reversal is
applied before the pair swap; moreover the special-cased lengths of
nadine_i_memrev agree with full reversal and with the general two-pointer
loop at every length. -/
theorem C7_xform_spec (l : List Nat) (c : Nat) :
    nadine_i_xform l c =
      (if c &&& 2 ≠ 0 then pairSwap else id)
        ((if c &&& 1 ≠ 0 then List.reverse else id) l) ∧
    nadine_i_memrev l = l.reverse ∧
    revLoopAux l 0 (l.length - 1) = l.reverse := by
  refine ⟨?_, nadine_i_memrev_eq_reverse l, revLoopAux_full l⟩
  unfold nadine_i_xform
  by_cases h1 : c % 2 = 1 <;> by_cases h2 : c &&& 2 ≠ 0 <;>
    simp [h1, h2, nadine_i_memrev_eq_reverse, nadine_i_byteswap_eq_pairSwap]

/-- Witness for C7: the transform with code 3 on a 4-byte span. -/
theorem C7_xform_spec_witness :
    nadine_i_xform [1, 2, 3, 4] 3 =
      (if (3 : Nat) &&& 2 ≠ 0 then pairSwap else id)
        ((if (3 : Nat) &&& 1 ≠ 0 then List.reverse else id) [1, 2, 3, 4]) :=
  (C7_xform_spec [1, 2, 3, 4] 3).1

/-- C8: when the transform code native XOR target is exactly 1 (full
reversal, no pair swap) and the width is 2, 4 or 8 bytes, the shift-and-mask
formula NADINE_I_WREV-width equals copying the value bytes to a buffer,
reversing it end to end with nadine_i_memrev, and reading the value back;
consequently nadine_convert returns the same result as the general
copy-transform-unpun path. -/
theorem C8_fastpath_eq_general {e n endian v : Nat} (he : e < 4)
    (ho : endian < 4) (hn248 : n = 2 ∨ n = 4 ∨ n = 8)
    (hcode : NADINE_I_NATIVE_INT e n ^^^ endian = 1) (hv : v < 256 ^ n) :
    (if n = 2 then NADINE_I_WREV2 v
      else if n = 4 then NADINE_I_WREV4 v else NADINE_I_WREV8 v) =
      unpun e n (nadine_i_memrev (punBytes e n v)) ∧
    nadine_convert e n endian v =
      unpun e n (nadine_i_xform (punBytes e n v)
        (NADINE_I_NATIVE_INT e n ^^^ endian)) := by
  have hn : 2 ∣ n := by rcases hn248 with rfl | rfl | rfl <;> decide
  have h0 : 0 < n := by rcases hn248 with rfl | rfl | rfl <;> decide
  constructor
  · rw [← nadine_i_xform_one, cvt_general_eq he (by norm_num) hn]
    rcases hn248 with rfl | rfl | rfl
    · rw [if_pos rfl, WREV2_as_sum]
    · rw [if_neg (by norm_num), if_pos rfl, WREV4_as_sum]
    · rw [if_neg (by norm_num), if_neg (by norm_num), WREV8_as_sum]
  · rw [convert_eq_perm he ho hn h0 hv, hcode,
      cvt_general_eq he (by norm_num) hn]

/-- Witness for C8: the fast path at width 4 on a little-endian machine with
tag big. -/
theorem C8_fastpath_eq_general_witness :
    (if 4 = 2 then NADINE_I_WREV2 66051
      else if 4 = 4 then NADINE_I_WREV4 66051 else NADINE_I_WREV8 66051) =
      unpun 0 4 (nadine_i_memrev (punBytes 0 4 66051)) ∧
    nadine_convert 0 4 1 66051 =
      unpun 0 4 (nadine_i_xform (punBytes 0 4 66051)
        (NADINE_I_NATIVE_INT 0 4 ^^^ 1)) :=
  C8_fastpath_eq_general (by decide) (by decide) (by decide) (by decide)
    (by decide)

/-- C9: every buffer index the read and write surface uses is in bounds: the
index function NADINE_I_INDEX maps every position below n to a position below
n for each of the four valid tags, the shift-strategy write never changes the
buffer length, and it leaves every byte at or beyond position n unchanged. -/
theorem C9_index_in_bounds {endian n : Nat} (ho : endian < 4) (hn : 2 ∣ n) :
    (∀ i, i < n → NADINE_I_INDEX endian n i < n) ∧
    (∀ (dst : List Nat) (v : Nat),
      (nadine_write_shift endian n dst v).length = dst.length) ∧
    (∀ (dst : List Nat) (v p : Nat), n ≤ dst.length → n ≤ p →
      (nadine_write_shift endian n dst v).getD p 0 = dst.getD p 0) := by
  refine ⟨fun i hi => INDEX_lt ho hn hi, fun dst v => write_shift_length _ _ _ _,
    fun dst v p hd hp => ?_⟩
  unfold nadine_write_shift
  suffices h : ∀ k, k ≤ n →
      ((List.range k).foldl
        (fun d i => d.set (NADINE_I_INDEX endian n i) (v >>> (8 * i) % 256))
        dst).length = dst.length ∧
      ((List.range k).foldl
        (fun d i => d.set (NADINE_I_INDEX endian n i) (v >>> (8 * i) % 256))
        dst).getD p 0 = dst.getD p 0 from (h n le_rfl).2
  intro k
  induction k with
  | zero =>
    intro _
    simp
  | succ k ih =>
    intro hk
    obtain ⟨ihlen, ihget⟩ := ih (by omega)
    rw [List.range_succ, List.foldl_append]
    simp only [List.foldl_cons, List.foldl_nil]
    have hik : NADINE_I_INDEX endian n k < n := INDEX_lt ho hn (by omega)
    constructor
    · rw [List.length_set, ihlen]
    · rw [set_getD (by rw [ihlen]; omega), if_neg (by omega), ihget]

/-- Witness for C9: the index map at tag PDP, width 4, position 2. -/
theorem C9_index_in_bounds_witness : NADINE_I_INDEX 3 4 2 < 4 :=
  (C9_index_in_bounds (by decide) (by decide)).1 2 (by decide)

/-- C10: nadine_i_byteswap is total and in bounds for every span, not only
the even lengths its contract requires: it equals the specification pair
swap, preserves the length, swaps the bytes of every pair fully inside the
span, and for an odd length leaves the final byte unchanged (for a one-byte
span it changes nothing). -/
theorem C10_byteswap_total (l : List Nat) :
    nadine_i_byteswap l = pairSwap l ∧
    (nadine_i_byteswap l).length = l.length ∧
    (∀ k, 2 * k + 1 < l.length →
      (nadine_i_byteswap l).getD (2 * k) 0 = l.getD (2 * k + 1) 0 ∧
      (nadine_i_byteswap l).getD (2 * k + 1) 0 = l.getD (2 * k) 0) ∧
    (l.length % 2 = 1 →
      (nadine_i_byteswap l).getD (l.length - 1) 0 = l.getD (l.length - 1) 0) := by
  refine ⟨nadine_i_byteswap_eq_pairSwap l, ?_, ?_, ?_⟩
  · rw [nadine_i_byteswap_eq_pairSwap, pairSwap_length]
  · intro k hk
    constructor
    · rw [nadine_i_byteswap_eq_pairSwap, pairSwap_getD,
        if_pos ⟨by omega, by omega⟩]
    · rw [nadine_i_byteswap_eq_pairSwap, pairSwap_getD, if_neg (by omega),
        if_pos ⟨by omega, by omega⟩]
      all_goals congr 1
      all_goals omega
  · intro hodd
    rw [nadine_i_byteswap_eq_pairSwap, pairSwap_getD, if_neg (by omega),
      if_neg (by omega)]

/-- Witness for C10: the pair swap of a 3-byte span keeps the final byte. -/
theorem C10_byteswap_total_witness :
    nadine_i_byteswap [1, 2, 3] = pairSwap [1, 2, 3] :=
  (C10_byteswap_total [1, 2, 3]).1

end Nadine
